import Mathlib

/-!
# QueryOperation: result materialisation and plan definition

A shallow embedding of `jones-ndb/impl/src/ndb/QueryOperation.cpp`.

Conventions of the embedding

* A `char *` block is a list of bytes; a byte is a natural number (bytes are only
  copied and compared here). A null `char *` is `none`.
* The header array `results` is the list of the headers of the allocated block;
  the null pointer is the empty list.
* `buffers` is indexed by level; only the entries below `depth` exist in the
  program, and only those are read under the preconditions used below.
* The counters (`nresults`, `nheaders`, `nextHeaderAllocationSize`, `lastCopy`)
  are natural numbers: their C++ types are declared in `QueryOperation.h`, which
  is not among the sources, so no width is imposed on them.
* The allocator and the NDB cursor are the environment. The allocator is a list
  of answers to the successive `calloc`/`malloc` requests; the cursor is a list
  of the successive outcomes of `ndbQuery->nextResult()`.
-/

set_option autoImplicit false

/-- Contents of a `char *` block. -/
abbrev Bytes := List Nat

/-- Row-shape descriptor; only `getBufferSize()` is used by this file. -/
structure Record where
  getBufferSize : Nat
deriving DecidableEq, Repr

/-- Diagnostic of the NDB API (`NdbError`). -/
structure NdbError where
  code : Int
  message : String
deriving DecidableEq, Repr

/-- The fields of `QueryBuffer` that `QueryOperation.cpp` uses: the record, the block
`buffer` of `size` bytes, and `lastCopy`. -/
structure QueryBuffer where
  record : Option Record
  buffer : Bytes
  size : Nat
  lastCopy : Nat
deriving DecidableEq, Repr

/-- Modelled from the spec: the constructor of `QueryBuffer` is in `QueryOperation.h`,
which is not among the sources. A buffer as `new QueryBuffer[sz]` leaves it has no
record, no block, and `lastCopy = 0` ("index into ResultStore of the last row copied
out at this level (0 = none yet)"). -/
def QueryBuffer.fresh : QueryBuffer :=
  { record := none, buffer := [], size := 0, lastCopy := 0 }

/-- One entry of the header array: `data` (null is `none`), `depth`, `tag`. -/
structure QueryResultHeader where
  data : Option Bytes
  depth : Nat
  tag : Nat
deriving DecidableEq, Repr

/-- A header as `calloc` leaves it. -/
def QueryResultHeader.zeroed : QueryResultHeader :=
  { data := none, depth := 0, tag := 0 }

/-- The members of `QueryOperation` that result materialisation uses. -/
structure QueryOperation where
  depth : Nat
  buffers : Nat → QueryBuffer
  results : List QueryResultHeader
  nresults : Nat
  nheaders : Nat
  nextHeaderAllocationSize : Nat
  latest_error : Option NdbError

/-- The constructor `QueryOperation::QueryOperation(int sz)`. It does not initialise
`latest_error`; the model starts without one. -/
def newQueryOperation (sz : Nat) : QueryOperation :=
  { depth := sz
    buffers := fun _ => QueryBuffer.fresh
    results := []
    nresults := 0
    nheaders := 0
    nextHeaderAllocationSize := 1024
    latest_error := none }

/-- Answers of the allocator to the successive allocation requests (`true`: a block,
`false`: null). Once the list is used up every request succeeds. -/
abbrev Heap := List Bool

/-- One allocation request: the answer and the remaining answers. -/
def Heap.request : Heap → Bool × Heap
  | [] => (true, [])
  | b :: rest => (b, rest)

/-- What a `bool`-returning member function leaves behind. -/
structure Outcome where
  ok : Bool
  q : QueryOperation
  heap : Heap

/-- What `getResult` returns: the null pointer, the address of a header of the
block (represented by that header), or an address outside the block. -/
inductive HeaderPtr where
  | null
  | header (h : QueryResultHeader)
  | outside
deriving DecidableEq, Repr

namespace QueryOperation

/-- `createRowBuffer(level, record)`; the bytes of the new block are unspecified in
C++, here zero. -/
def createRowBuffer (q : QueryOperation) (level : Nat) (record : Record) : QueryOperation :=
  let b : QueryBuffer :=
    { (q.buffers level) with
        record := some record
        buffer := List.replicate record.getBufferSize 0
        size := record.getBufferSize }
  { q with buffers := Function.update q.buffers level b }

/-- `growHeaderArray()`. `calloc` gives `nextHeaderAllocationSize` zeroed headers and
`memcpy` overwrites the first `nheaders` of them with those of the old block (which
holds `nheaders` headers in every well-formed state; `free` of the old block has no
effect on the model). On a failed `calloc` the member `results` has already been
overwritten with null. -/
def growHeaderArray (q : QueryOperation) (heap : Heap) : Outcome :=
  let old_results := q.results
  let answer := Heap.request heap
  if answer.1 then
    let block := List.replicate q.nextHeaderAllocationSize QueryResultHeader.zeroed
    { ok := true
      q := { q with
              results := old_results.take q.nheaders ++ block.drop q.nheaders
              nheaders := q.nextHeaderAllocationSize
              nextHeaderAllocationSize := q.nextHeaderAllocationSize * 2 }
      heap := answer.2 }
  else
    { ok := false, q := { q with results := [] }, heap := answer.2 }

/-- The assignment `results[n].data = d`. An `n` outside the block, undefined in C++,
leaves the block as it is; `pushResult` writes inside the block in every well-formed
state. -/
def setData (rs : List QueryResultHeader) (n : Nat) (d : Option Bytes) :
    List QueryResultHeader :=
  rs.set n { (rs.getD n QueryResultHeader.zeroed) with data := d }

/-- The assignment `results[n].depth = level`. -/
def setDepth (rs : List QueryResultHeader) (n : Nat) (level : Nat) :
    List QueryResultHeader :=
  rs.set n { (rs.getD n QueryResultHeader.zeroed) with depth := level }

/-- `pushResult(level)`. -/
def pushResult (q : QueryOperation) (level : Nat) (heap : Heap) : Outcome :=
  let n := q.nresults
  let grown : Outcome :=
    if n = q.nheaders then growHeaderArray q heap else { ok := true, q := q, heap := heap }
  if grown.ok then
    let q1 := { grown.q with nresults := grown.q.nresults + 1 }
    let answer := Heap.request grown.heap
    if answer.1 then
      let payload := (q1.buffers level).buffer.take (q1.buffers level).size
      let q2 := { q1 with results := setDepth (setData q1.results n (some payload)) n level }
      let b : QueryBuffer := { (q2.buffers level) with lastCopy := q2.nresults }
      { ok := true
        q := { q2 with buffers := Function.update q2.buffers level b }
        heap := answer.2 }
    else
      { ok := false, q := { q1 with results := setData q1.results n none }, heap := answer.2 }
  else
    { ok := false, q := grown.q, heap := grown.heap }

/-- The test `! memcmp(data, temp_result, size)` of `pushResultIfChanged`: the first
`size` bytes agree. A null `data`, undefined in C++, counts as different; the headers
`lastCopy` points at have a payload in every reached state. -/
def sameBytes (data : Option Bytes) (temp_result : Bytes) (size : Nat) : Bool :=
  match data with
  | some d => decide (d.take size = temp_result.take size)
  | none => false

/-- `pushResultIfChanged(level)`. A `lastCopy - 1` outside the block, undefined in C++,
reads a zeroed header; it is inside the block in every reached state. -/
def pushResultIfChanged (q : QueryOperation) (level : Nat) (heap : Heap) : Outcome :=
  let temp_result := (q.buffers level).buffer
  let size := (q.buffers level).size
  let lastCopy := (q.buffers level).lastCopy
  if 0 < lastCopy ∧
      sameBytes (q.results.getD (lastCopy - 1) QueryResultHeader.zeroed).data temp_result size
        = true then
    { ok := true, q := q, heap := heap }
  else
    pushResult q level heap

/-- `getResult(id)`. -/
def getResult (q : QueryOperation) (id : Nat) : HeaderPtr :=
  if id < q.nresults then
    match q.results[id]? with
    | some h => HeaderPtr.header h
    | none => HeaderPtr.outside
  else HeaderPtr.null

end QueryOperation

/-- The values of `NdbQuery::NextResultOutcome`. -/
inductive NextResultOutcome where
  | NextResult_error
  | NextResult_gotRow
  | NextResult_scanComplete
  | NextResult_bufferEmpty
deriving DecidableEq, Repr

/-- One advance of the cursor, `ndbQuery->nextResult()`: the status it returns and,
with it, the row it has written into the buffers of the levels (`gotRow`) or the
diagnostic that `ndbQuery->getNdbError()` then gives (`error`). -/
inductive CursorEvent where
  | gotRow (row : Nat → Bytes)
  | scanComplete
  | bufferEmpty
  | error (err : NdbError)

/-- The status that `nextResult()` returns. -/
def CursorEvent.status : CursorEvent → NextResultOutcome
  | CursorEvent.gotRow _ => NextResultOutcome.NextResult_gotRow
  | CursorEvent.scanComplete => NextResultOutcome.NextResult_scanComplete
  | CursorEvent.bufferEmpty => NextResultOutcome.NextResult_bufferEmpty
  | CursorEvent.error _ => NextResultOutcome.NextResult_error

/-- `more(status)`. -/
def more (status : NextResultOutcome) : Bool :=
  status = NextResultOutcome.NextResult_gotRow ||
    status = NextResultOutcome.NextResult_bufferEmpty

/-- `isError(status)`. -/
def isError (status : NextResultOutcome) : Bool :=
  status = NextResultOutcome.NextResult_error

/-- The calls `fetchAllResults` makes, in order, with what they returned. -/
inductive Call where
  | nextResult (status : NextResultOutcome)
  | pushResultIfChanged (level : Nat) (ok : Bool)
deriving DecidableEq, Repr

/-- What the `for` loop over the levels leaves behind. -/
structure LevelsOutcome where
  ok : Bool
  q : QueryOperation
  heap : Heap
  calls : List Call

/-- What `fetchAllResults` leaves behind: the returned `int`, the object, the rest of
the environment, and the calls made. -/
structure FetchResult where
  ret : Int
  q : QueryOperation
  heap : Heap
  cursor : List CursorEvent
  calls : List Call

namespace QueryOperation

/-- The cursor writes the row of each level into the block registered for that level
by `createNdbQuery` (`setResultRowBuf` for every `i < depth`). -/
def receiveRow (q : QueryOperation) (row : Nat → Bytes) : QueryOperation :=
  { q with buffers := fun level =>
      if level < q.depth then { (q.buffers level) with buffer := row level }
      else q.buffers level }

/-- The loop `for(level = 0; level < depth; level++) if(! pushResultIfChanged(level)) return -1;`
with `todo` iterations left, the next one at `level`. -/
def forEachLevel : Nat → Nat → QueryOperation → Heap → List Call → LevelsOutcome
  | 0, _, q, heap, calls => { ok := true, q := q, heap := heap, calls := calls }
  | todo + 1, level, q, heap, calls =>
    let r := pushResultIfChanged q level heap
    if r.ok then
      forEachLevel todo (level + 1) r.q r.heap (calls ++ [Call.pushResultIfChanged level true])
    else
      { ok := false, q := r.q, heap := r.heap
        calls := calls ++ [Call.pushResultIfChanged level false] }

/-- The loop `while(more(status))` of `fetchAllResults`. A cursor whose script is used
up reports `NextResult_scanComplete`. The result is `none` when the assertion
`assert(status == NdbQuery::NextResult_error)` fails. -/
def whileMore : List CursorEvent → NextResultOutcome → QueryOperation → Heap → List Call →
    Option FetchResult
  | [], status, q, heap, calls =>
    if more status then
      some { ret := q.nresults, q := q, heap := heap, cursor := []
             calls := calls ++ [Call.nextResult NextResultOutcome.NextResult_scanComplete] }
    else
      some { ret := q.nresults, q := q, heap := heap, cursor := [], calls := calls }
  | ev :: rest, status, q, heap, calls =>
    if more status then
      let calls1 := calls ++ [Call.nextResult ev.status]
      match ev with
      | CursorEvent.gotRow row =>
        let q1 := receiveRow q row
        let r := forEachLevel q1.depth 0 q1 heap calls1
        if r.ok then
          whileMore rest NextResultOutcome.NextResult_gotRow r.q r.heap r.calls
        else
          some { ret := -1, q := r.q, heap := r.heap, cursor := rest, calls := r.calls }
      | CursorEvent.scanComplete =>
        whileMore rest NextResultOutcome.NextResult_scanComplete q heap calls1
      | CursorEvent.error err =>
        some { ret := -1, q := { q with latest_error := some err }, heap := heap
               cursor := rest, calls := calls1 }
      | CursorEvent.bufferEmpty => none
    else
      some { ret := q.nresults, q := q, heap := heap, cursor := ev :: rest, calls := calls }

/-- `fetchAllResults()`. -/
def fetchAllResults (q : QueryOperation) (cursor : List CursorEvent) (heap : Heap) :
    Option FetchResult :=
  whileMore cursor NextResultOutcome.NextResult_bufferEmpty q heap []

/-- The populated headers: the first `nresults` entries of the header array. -/
def populated (q : QueryOperation) : List QueryResultHeader :=
  q.results.take q.nresults

end QueryOperation

/-- A `depth`-level plan with a row buffer of `sizes level` bytes at each level below
`depth`, built as `createQueryOperation` does (`createRowBuffer` per level). -/
def preparedPlan (depth : Nat) (sizes : Nat → Nat) : QueryOperation :=
  (List.range depth).foldl
    (fun q level => q.createRowBuffer level { getBufferSize := sizes level })
    (newQueryOperation depth)

/-! ### Plan definition

`NdbDictionary`, `NdbQueryBuilder` and `NdbQueryIndexBound` belong to the NDB API, not
to this repository: the builder is a parameter of `defineOperation`. -/

/-- The value of `index->getType()`: the two types `defineOperation` knows, or any
other value of `NdbDictionary::Index::Type`. -/
inductive IndexType where
  | UniqueHashIndex
  | OrderedIndex
  | other (code : Nat)
deriving DecidableEq, Repr

/-- An index handle (`const NdbDictionary::Index *`, non-null). -/
structure Index where
  name : String
  getType : IndexType
deriving DecidableEq, Repr

/-- A table handle (`const NdbDictionary::Table *`). -/
structure Table where
  name : String
deriving DecidableEq, Repr

/-- The bound `NdbQueryIndexBound(keys)` of the NDB API: both ends are the given key
parts, both inclusive. -/
structure NdbQueryIndexBound (Operand : Type) where
  low : List Operand
  lowInclusive : Bool
  high : List Operand
  highInclusive : Bool
deriving DecidableEq, Repr

/-- The constructor `NdbQueryIndexBound(const NdbQueryOperand* const *eqKey)`. -/
def NdbQueryIndexBound.ofKeys {Operand : Type} (keys : List Operand) :
    NdbQueryIndexBound Operand :=
  { low := keys, lowInclusive := true, high := keys, highInclusive := true }

/-- The operations of `NdbQueryBuilder` that `QueryOperation` calls, as functions of the
builder's state: each returns the definition (`none` is the null pointer) and the
state it leaves; `getNdbError` reads the builder's latest error. -/
structure NdbQueryBuilder (State Operand Def : Type) where
  readTuple : State → Table → List Operand → Option Def × State
  readTupleIndex : State → Index → Table → List Operand → Option Def × State
  scanIndex : State → Index → Table → NdbQueryIndexBound Operand → Option Def × State
  getNdbError : State → NdbError

/-- `defineOperation(index, table, keys)`: the definition returned and the state of the
builder afterwards. The null-terminated array `keys` is a list; `index` is `none` for
the null pointer. The `DEBUG_PRINT` lines have no effect on the state. -/
def QueryOperation.defineOperation {State Operand Def : Type}
    (ndbQueryBuilder : NdbQueryBuilder State Operand Def) (st : State)
    (index : Option Index) (table : Table) (keys : List Operand) : Option Def × State :=
  match index with
  | some ix =>
    match ix.getType with
    | IndexType.UniqueHashIndex => ndbQueryBuilder.readTupleIndex st ix table keys
    | IndexType.OrderedIndex =>
      let bound := NdbQueryIndexBound.ofKeys keys
      ndbQueryBuilder.scanIndex st ix table bound
    | IndexType.other _ => (none, st)
  | none => ndbQueryBuilder.readTuple st table keys

/-- `getNdbError()` of `QueryOperation`: the builder's latest error. -/
def QueryOperation.getNdbError {State Operand Def : Type}
    (ndbQueryBuilder : NdbQueryBuilder State Operand Def) (st : State) : NdbError :=
  ndbQueryBuilder.getNdbError st

/-- A builder whose state is its latest error and whose operations all succeed, giving
the definitions 1 (`readTuple` on a table), 2 (`readTuple` on an index) and 3
(`scanIndex`) and leaving the state as it is. -/
def plainBuilder : NdbQueryBuilder NdbError Nat Nat :=
  { readTuple := fun st _ _ => (some 1, st)
    readTupleIndex := fun st _ _ _ => (some 2, st)
    scanIndex := fun st _ _ _ => (some 3, st)
    getNdbError := fun st => st }

/-- Every allocation request is answered with a block. -/
def AllSucceed (heap : Heap) : Prop := ∀ b ∈ heap, b = true

/-- The shape of the header array in normal operation: the block holds `nheaders`
headers, the populated ones are inside it, and the next growth enlarges it. -/
structure WellFormed (q : QueryOperation) : Prop where
  block : q.results.length = q.nheaders
  inside : q.nresults ≤ q.nheaders
  grows : q.nheaders < q.nextHeaderAllocationSize
  spare : ∀ i, q.nresults ≤ i → i < q.nheaders →
    q.results[i]? = some QueryResultHeader.zeroed

/-- The header that `pushResult(level)` writes from the buffer bytes `b`. -/
def QueryResultHeader.copyOf (level : Nat) (b : Bytes) : QueryResultHeader :=
  { data := some b, depth := level, tag := 0 }

/-- The headers one cursor step is expected to append: for the levels `level`,
`level + 1`, ... (`todo` of them), in this order, a copy of the row of the level
unless `prev` holds these very bytes for the level. -/
def stepHeaders (prev : Nat → Option Bytes) (row : Nat → Bytes) :
    Nat → Nat → List QueryResultHeader
  | 0, _ => []
  | todo + 1, level =>
    (if prev level = some (row level) then [] else [QueryResultHeader.copyOf level (row level)])
      ++ stepHeaders prev row todo (level + 1)

/-- The bytes last seen at each level once a cursor step over `count` levels starting
at `level` is over. -/
def seenAfter (prev : Nat → Option Bytes) (row : Nat → Bytes) (level count : Nat) :
    Nat → Option Bytes :=
  fun l => if level ≤ l ∧ l < level + count then some (row l) else prev l

/-- The headers expected of a run of cursor steps, one segment per step. -/
def segments (depth : Nat) : (Nat → Option Bytes) → List (Nat → Bytes) →
    List (List QueryResultHeader)
  | _, [] => []
  | prev, row :: rows =>
    stepHeaders prev row depth 0 :: segments depth (seenAfter prev row 0 depth) rows

/-- The relation between the object and the bytes `prev` last copied out at each
level: `lastCopy` is zero where nothing was copied, and otherwise one more than the
index of a header of that level holding those bytes. -/
structure Tracks (q : QueryOperation) (prev : Nat → Option Bytes) : Prop where
  wf : WellFormed q
  none_yet : ∀ l, l < q.depth → prev l = none → (q.buffers l).lastCopy = 0
  copied : ∀ l b, l < q.depth → prev l = some b →
    0 < (q.buffers l).lastCopy ∧ (q.buffers l).lastCopy ≤ q.nresults ∧
    q.results[(q.buffers l).lastCopy - 1]? = some (QueryResultHeader.copyOf l b) ∧
    b.length = (q.buffers l).size

/-- The bytes last seen at each level after a run of cursor steps. -/
def seenRows (depth : Nat) (prev : Nat → Option Bytes) (rows : List (Nat → Bytes)) :
    Nat → Option Bytes :=
  rows.foldl (fun p row => seenAfter p row 0 depth) prev

/-- A new `QueryOperation`: the header array as the constructor leaves it, and no
level has a copy yet (`lastCopy = 0`). -/
def IsNew (q : QueryOperation) : Prop :=
  q.results = [] ∧ q.nresults = 0 ∧ q.nheaders = 0 ∧ q.nextHeaderAllocationSize = 1024 ∧
  ∀ l, l < q.depth → (q.buffers l).lastCopy = 0

/-- The number of cursor steps at which the bytes of one level differ from the bytes
of the most recently materialised header of that level, `last` (`none`: no header
of the level has been materialised yet, so the step counts as a difference). The
list holds the bytes of the level at the successive steps. -/
def changes : Option Bytes → List Bytes → Nat
  | _, [] => 0
  | last, b :: bs => if last = some b then changes last bs else changes (some b) bs + 1

/-- The bytes of one level at the successive cursor steps, a step being left out when
its bytes are those kept at the step before (`last`). -/
def collapseFrom : Option Bytes → List Bytes → List Bytes
  | _, [] => []
  | last, b :: bs =>
    if last = some b then collapseFrom last bs else b :: collapseFrom (some b) bs

/-- A two-level scan of three steps: the parent row `[1]` at level 0 throughout, the
child rows `[2]`, `[3]`, `[3]` at level 1. -/
def sampleRows : List (Nat → Bytes) :=
  [fun l => if l = 0 then [1] else [2],
   fun l => if l = 0 then [1] else [3],
   fun l => if l = 0 then [1] else [3]]

/-- The states reached from a new `QueryOperation` of `depth` levels by
`createRowBuffer`, by rows the cursor writes into the buffers, and by calls of
`pushResultIfChanged` at levels below `depth` that return `true` or fail only in the
`malloc` of the payload (a call in which `growHeaderArray` fails is not followed). The
second index records, per level, the row last copied out: the bytes `pushResult`
copied from the level's buffer when the call returned `true` and appended a header. -/
inductive ReachedWith (depth : Nat) : QueryOperation → (Nat → Option Bytes) → Prop
  | new : ReachedWith depth (newQueryOperation depth) (fun _ => none)
  | createRowBuffer (q : QueryOperation) (copied : Nat → Option Bytes) (level : Nat)
      (record : Record) :
      ReachedWith depth q copied → level < depth →
      ReachedWith depth (q.createRowBuffer level record) copied
  | receiveRow (q : QueryOperation) (copied : Nat → Option Bytes) (row : Nat → Bytes) :
      ReachedWith depth q copied → ReachedWith depth (q.receiveRow row) copied
  | push (q : QueryOperation) (copied : Nat → Option Bytes) (level : Nat) (heap : Heap) :
      ReachedWith depth q copied → level < depth →
      ((q.pushResultIfChanged level heap).ok = true ∨
        (q.nresults = q.nheaders → (Heap.request heap).1 = true)) →
      ReachedWith depth (q.pushResultIfChanged level heap).q
        (if (q.pushResultIfChanged level heap).ok = true ∧
            (q.pushResultIfChanged level heap).q.nresults ≠ q.nresults then
           Function.update copied level
             (some ((q.buffers level).buffer.take (q.buffers level).size))
         else copied)

/-- The states reached from a new `QueryOperation` of `depth` levels by pushes in
which the header array is never lost (see `ReachedWith`); they include every state
reached by successful pushes. -/
def Reachable (depth : Nat) (q : QueryOperation) : Prop :=
  ∃ copied, ReachedWith depth q copied

/-- What holds in every reached state. -/
structure ReachInv (depth : Nat) (q : QueryOperation) (copied : Nat → Option Bytes) :
    Prop where
  depth_eq : q.depth = depth
  wf : WellFormed q
  levels : ∀ i h, i < q.nresults → q.results[i]? = some h → h.depth < depth
  none_yet : ∀ l, l < depth → copied l = none → (q.buffers l).lastCopy = 0
  copied_at : ∀ l b, l < depth → copied l = some b →
    0 < (q.buffers l).lastCopy ∧ (q.buffers l).lastCopy ≤ q.nresults ∧
    q.results[(q.buffers l).lastCopy - 1]? = some (QueryResultHeader.copyOf l b)

/-- A one-level plan with a one-byte row buffer, after the cursor has delivered the
row `[7]` and `pushResultIfChanged(0)` has copied it out. -/
def onePush : QueryOperation :=
  (((((newQueryOperation 1).createRowBuffer 0 { getBufferSize := 1 }).receiveRow
    (fun _ => [7])).pushResultIfChanged 0 [])).q

/-- A two-level cursor row: `parent` at level 0 and `child` at the levels above. -/
def joinRow (parent child : Bytes) : Nat → Bytes :=
  fun l => if l = 0 then parent else child

/-- A run of calls without a failure and without a terminal cursor outcome: the cursor
gave rows and the pushes returned `true`. -/
def Quiet (calls : List Call) : Prop :=
  ∀ c, c ∈ calls →
    c = Call.nextResult NextResultOutcome.NextResult_gotRow ∨
    ∃ l, c = Call.pushResultIfChanged l true

/-- A one-level plan with a one-byte row buffer after `n` cursor steps, the row of step
`i` being `[i % 2]`, each followed by `pushResultIfChanged(0)`. -/
def pushes : Nat → QueryOperation
  | 0 => (newQueryOperation 1).createRowBuffer 0 { getBufferSize := 1 }
  | n + 1 => (((pushes n).receiveRow (fun _ => [n % 2])).pushResultIfChanged 0 []).q

/-- The capacities the header array goes through: no block yet (capacity 0, the first
growth to 1024), or a block of 1024, 2048, 4096, ... headers with the next growth to
twice as many. -/
def CapacityShape (q : QueryOperation) : Prop :=
  (q.nheaders = 0 ∧ q.nresults = 0 ∧ q.nextHeaderAllocationSize = 1024) ∨
  ∃ k, q.nheaders = 1024 * 2 ^ k ∧ q.nextHeaderAllocationSize = 2 * q.nheaders

/-- The rows of the leading "got a row" outcomes of a cursor script. -/
def leadingRows : List CursorEvent → List (Nat → Bytes)
  | CursorEvent.gotRow row :: rest => row :: leadingRows rest
  | _ => []

/-- What follows the leading "got a row" outcomes of a cursor script: nothing, or the
first outcome of another kind and what comes after it. -/
def afterRows : List CursorEvent → List CursorEvent
  | CursorEvent.gotRow _ :: rest => afterRows rest
  | cursor => cursor

/-- The levels of a list pushed in order, each by `pushResultIfChanged`, down to the
first push that returns `false`: what that push left behind, or, when every push
returned `true`, the object and the allocator after the last one. -/
def pushLevels : List Nat → QueryOperation → Heap → Outcome
  | [], q, heap => { ok := true, q := q, heap := heap }
  | level :: levels, q, heap =>
    let r := QueryOperation.pushResultIfChanged q level heap
    if r.ok then pushLevels levels r.q r.heap else r

/-- What pushing a run of cursor rows comes to: every level of every row was pushed
(the object and the allocator afterwards), or a push failed at some row (the number
of rows pushed in full before it, and what the failing push left behind). -/
inductive RowsOutcome where
  | pushed (q : QueryOperation) (heap : Heap)
  | failed (before : Nat) (f : Outcome)

/-- The rows of a run pushed one after the other: the cursor writes the row, the levels
`0, ..., depth - 1` are pushed in this order, and the run stops at the first push that
fails. -/
def pushRows : QueryOperation → Heap → List (Nat → Bytes) → RowsOutcome
  | q, heap, [] => RowsOutcome.pushed q heap
  | q, heap, row :: rows =>
    let f := pushLevels (List.range q.depth) (q.receiveRow row) heap
    if f.ok then
      match pushRows f.q f.heap rows with
      | RowsOutcome.pushed q' heap' => RowsOutcome.pushed q' heap'
      | RowsOutcome.failed before g => RowsOutcome.failed (before + 1) g
    else RowsOutcome.failed 0 f

/-! ## Theorems -/

namespace QueryOperation

theorem request_of_allSucceed {heap : Heap} (h : AllSucceed heap) :
    (Heap.request heap).1 = true ∧ AllSucceed (Heap.request heap).2 := by
  cases heap with
  | nil => exact ⟨rfl, h⟩
  | cons b rest =>
    refine ⟨h b (List.mem_cons_self _ _), ?_⟩
    intro c hc
    exact h c (List.mem_cons_of_mem _ hc)

theorem getElem?_setDepth_setData (rs : List QueryResultHeader) (n : Nat)
    (d : Option Bytes) (level i : Nat) :
    (setDepth (setData rs n d) n level)[i]? =
      if i = n then
        (if n < rs.length then
          some { data := d, depth := level, tag := (rs.getD n QueryResultHeader.zeroed).tag }
         else none)
      else rs[i]? := by
  unfold setDepth setData
  by_cases hi : i = n
  · subst hi
    by_cases hl : i < rs.length
    · simp [List.getElem?_set, hl, List.getD_eq_getElem?_getD]
    · simp [List.getElem?_set, hl]
  · have hne : n ≠ i := fun h => hi h.symm
    simp [List.getElem?_set, hi, hne]

theorem getElem?_setData (rs : List QueryResultHeader) (n : Nat)
    (d : Option Bytes) (i : Nat) (hi : i ≠ n) :
    (setData rs n d)[i]? = rs[i]? := by
  unfold setData
  have hne : n ≠ i := fun h => hi h.symm
  simp [List.getElem?_set, hne]

theorem length_setDepth_setData (rs : List QueryResultHeader) (n : Nat)
    (d : Option Bytes) (level : Nat) :
    (setDepth (setData rs n d) n level).length = rs.length := by
  simp [setDepth, setData]

/-- What a successful `growHeaderArray` does to a well-formed object. -/
theorem growHeaderArray_spec (q : QueryOperation) (heap : Heap) (hq : WellFormed q)
    (hh : (Heap.request heap).1 = true) :
    (growHeaderArray q heap).ok = true ∧
    (growHeaderArray q heap).heap = (Heap.request heap).2 ∧
    (growHeaderArray q heap).q.nresults = q.nresults ∧
    (growHeaderArray q heap).q.depth = q.depth ∧
    (growHeaderArray q heap).q.buffers = q.buffers ∧
    (growHeaderArray q heap).q.latest_error = q.latest_error ∧
    (growHeaderArray q heap).q.nheaders = q.nextHeaderAllocationSize ∧
    (growHeaderArray q heap).q.nextHeaderAllocationSize = q.nextHeaderAllocationSize * 2 ∧
    (growHeaderArray q heap).q.results.length = q.nextHeaderAllocationSize ∧
    (∀ i, i < q.nheaders → (growHeaderArray q heap).q.results[i]? = q.results[i]?) ∧
    (∀ i, q.nheaders ≤ i → i < q.nextHeaderAllocationSize →
      (growHeaderArray q heap).q.results[i]? = some QueryResultHeader.zeroed) := by
  have hb := hq.block
  have hg := hq.grows
  dsimp only [growHeaderArray]
  rw [if_pos hh]
  refine ⟨rfl, rfl, rfl, rfl, rfl, rfl, rfl, rfl, ?_, ?_, ?_⟩
  · simp [List.length_take, hb]
    omega
  · intro i hi
    rw [List.getElem?_append_left]
    · simp [List.getElem?_take, hi]
    · simp [List.length_take, hb, hi]
  · intro i hi hlt
    rw [List.getElem?_append_right]
    · simp only [List.length_take, hb, Nat.min_self, List.getElem?_drop,
        List.getElem?_replicate]
      rw [if_pos (by omega)]
    · simp [List.length_take, hb, hi]

/-- The state in which `pushResult` writes the new header: the object after the
growth, if one was due. -/
theorem grown_spec (q : QueryOperation) (heap : Heap) (hq : WellFormed q)
    (hh : q.nresults = q.nheaders → (Heap.request heap).1 = true) :
    ∃ g : Outcome,
      (if q.nresults = q.nheaders then growHeaderArray q heap
        else { ok := true, q := q, heap := heap }) = g ∧
      g.ok = true ∧
      g.heap = (if q.nresults = q.nheaders then (Heap.request heap).2 else heap) ∧
      g.q.nresults = q.nresults ∧ g.q.depth = q.depth ∧ g.q.buffers = q.buffers ∧
      g.q.latest_error = q.latest_error ∧
      g.q.results.length = g.q.nheaders ∧ q.nresults < g.q.nheaders ∧
      g.q.nheaders < g.q.nextHeaderAllocationSize ∧
      (∀ i, i < q.nresults → g.q.results[i]? = q.results[i]?) ∧
      (∀ i, q.nresults ≤ i → i < g.q.nheaders →
        g.q.results[i]? = some QueryResultHeader.zeroed) := by
  by_cases hfull : q.nresults = q.nheaders
  · obtain ⟨h1, h2, h3, h4, h5, h6, h7, h8, h9, h10, h11⟩ :=
      growHeaderArray_spec q heap hq (hh hfull)
    refine ⟨growHeaderArray q heap, by simp [hfull], h1, by simp [hfull, h2], h3, h4, h5, h6,
      by rw [h9, h7], ?_, ?_, ?_, ?_⟩
    · rw [h7, hfull]; exact hq.grows
    · rw [h7, h8]; have := hq.grows; omega
    · intro i hi
      exact h10 i (by omega)
    · intro i hi hlt
      exact h11 i (by omega) (by omega)
  · refine ⟨{ ok := true, q := q, heap := heap }, by simp [hfull], rfl, by simp [hfull],
      rfl, rfl, rfl, rfl, hq.block, ?_, hq.grows, fun _ _ => rfl, hq.spare⟩
    show q.nresults < q.nheaders
    have := hq.inside
    omega

/-- What `pushResult` does to a well-formed object when the allocation requests it
makes are answered: one header is appended, made of the bytes of the level's buffer
and of the level, and the level's `lastCopy` becomes the new count. -/
theorem pushResult_core (q : QueryOperation) (level : Nat) (heap : Heap)
    (hq : WellFormed q) (hgrow : q.nresults = q.nheaders → (Heap.request heap).1 = true)
    (hmalloc : (Heap.request
      (if q.nresults = q.nheaders then (Heap.request heap).2 else heap)).1 = true) :
    (pushResult q level heap).ok = true ∧
    (pushResult q level heap).heap = (Heap.request
      (if q.nresults = q.nheaders then (Heap.request heap).2 else heap)).2 ∧
    WellFormed (pushResult q level heap).q ∧
    (pushResult q level heap).q.depth = q.depth ∧
    (pushResult q level heap).q.latest_error = q.latest_error ∧
    (pushResult q level heap).q.nresults = q.nresults + 1 ∧
    (pushResult q level heap).q.buffers =
      Function.update q.buffers level
        { (q.buffers level) with lastCopy := q.nresults + 1 } ∧
    (∀ i, i < q.nresults → (pushResult q level heap).q.results[i]? = q.results[i]?) ∧
    (pushResult q level heap).q.results[q.nresults]? =
      some { data := some ((q.buffers level).buffer.take (q.buffers level).size)
             depth := level, tag := 0 } := by
  obtain ⟨g, hg, g1, g2, g3, g4, g5, g6, g7, g8, g9, g10, g11⟩ :=
    grown_spec q heap hq hgrow
  rw [← g2] at hmalloc ⊢
  dsimp only [pushResult]
  rw [hg, if_pos g1, if_pos hmalloc]
  dsimp only
  refine ⟨rfl, rfl, ⟨?_, ?_, g9, ?_⟩, g4, g6, by rw [g3], ?_, ?_, ?_⟩
  · rw [length_setDepth_setData]; exact g7
  · show g.q.nresults + 1 ≤ g.q.nheaders
    omega
  · intro i hi hlt
    have hi' : q.nresults + 1 ≤ i := by rw [← g3]; exact hi
    show (setDepth (setData g.q.results q.nresults _) q.nresults level)[i]? = _
    rw [getElem?_setDepth_setData, if_neg (by omega)]
    exact g11 i (by omega) hlt
  · rw [g5, g3]
  · intro i hi
    rw [getElem?_setDepth_setData, if_neg (by omega)]
    exact g10 i hi
  · rw [getElem?_setDepth_setData, if_pos rfl, if_pos (by omega), g5]
    have hz := g11 q.nresults (le_refl _) g8
    simp [List.getD_eq_getElem?_getD, hz, QueryResultHeader.zeroed]

/-- The allocation requests of a `pushResult` that returns `true` were answered. -/
theorem requests_of_pushResult_ok (q : QueryOperation) (level : Nat) (heap : Heap)
    (hq : WellFormed q) (hok : (pushResult q level heap).ok = true) :
    (q.nresults = q.nheaders → (Heap.request heap).1 = true) ∧
    (Heap.request
      (if q.nresults = q.nheaders then (Heap.request heap).2 else heap)).1 = true := by
  have hgrow : q.nresults = q.nheaders → (Heap.request heap).1 = true := by
    intro hfull
    by_contra hne
    have : (pushResult q level heap).ok = false := by
      simp [pushResult, hfull, growHeaderArray, hne]
    rw [this] at hok
    exact Bool.noConfusion hok
  refine ⟨hgrow, ?_⟩
  obtain ⟨g, hg, g1, g2, -⟩ := grown_spec q heap hq hgrow
  by_contra hne
  rw [← g2] at hne
  have : (pushResult q level heap).ok = false := by
    dsimp only [pushResult]
    rw [hg, if_pos g1, if_neg hne]
  rw [this] at hok
  exact Bool.noConfusion hok

/-- What `pushResult` does to a well-formed object when the `malloc` of the payload
fails: it returns `false`, yet the populated count has been incremented and the header
at the old count is left without payload. -/
theorem pushResult_nomem (q : QueryOperation) (level : Nat) (heap : Heap)
    (hq : WellFormed q) (hgrow : q.nresults = q.nheaders → (Heap.request heap).1 = true)
    (hmalloc : ¬ (Heap.request
      (if q.nresults = q.nheaders then (Heap.request heap).2 else heap)).1 = true) :
    (pushResult q level heap).ok = false ∧
    WellFormed (pushResult q level heap).q ∧
    (pushResult q level heap).q.depth = q.depth ∧
    (pushResult q level heap).q.nresults = q.nresults + 1 ∧
    (pushResult q level heap).q.buffers = q.buffers ∧
    (∀ i, i < q.nresults → (pushResult q level heap).q.results[i]? = q.results[i]?) ∧
    (pushResult q level heap).q.results[q.nresults]? = some QueryResultHeader.zeroed := by
  obtain ⟨g, hg, g1, g2, g3, g4, g5, g6, g7, g8, g9, g10, g11⟩ :=
    grown_spec q heap hq hgrow
  rw [← g2] at hmalloc
  dsimp only [pushResult]
  rw [hg, if_pos g1, if_neg hmalloc]
  dsimp only
  have hz := g11 q.nresults (le_refl _) g8
  have hlen : (setData g.q.results q.nresults none).length = g.q.results.length := by
    simp [setData]
  have hat : (setData g.q.results q.nresults none)[q.nresults]? =
      some QueryResultHeader.zeroed := by
    unfold setData
    rw [List.getElem?_set_self (by omega)]
    simp [List.getD_eq_getElem?_getD, hz, QueryResultHeader.zeroed]
  refine ⟨rfl, ⟨?_, ?_, g9, ?_⟩, g4, by rw [g3], g5, ?_, hat⟩
  · rw [hlen]; exact g7
  · show g.q.nresults + 1 ≤ g.q.nheaders
    omega
  · intro i hi hlt
    have hi' : q.nresults + 1 ≤ i := by rw [← g3]; exact hi
    show (setData g.q.results q.nresults none)[i]? = _
    rw [getElem?_setData _ _ _ _ (by omega)]
    exact g11 i (by omega) hlt
  · intro i hi
    rw [getElem?_setData _ _ _ _ (by omega)]
    exact g10 i hi

/-- The instance of `pushResult_core` for an allocator that answers every request. -/
theorem pushResult_spec (q : QueryOperation) (level : Nat) (heap : Heap)
    (hq : WellFormed q) (hh : AllSucceed heap) :
    (pushResult q level heap).ok = true ∧
    AllSucceed (pushResult q level heap).heap ∧
    WellFormed (pushResult q level heap).q ∧
    (pushResult q level heap).q.depth = q.depth ∧
    (pushResult q level heap).q.latest_error = q.latest_error ∧
    (pushResult q level heap).q.nresults = q.nresults + 1 ∧
    (pushResult q level heap).q.buffers =
      Function.update q.buffers level
        { (q.buffers level) with lastCopy := q.nresults + 1 } ∧
    (∀ i, i < q.nresults → (pushResult q level heap).q.results[i]? = q.results[i]?) ∧
    (pushResult q level heap).q.results[q.nresults]? =
      some { data := some ((q.buffers level).buffer.take (q.buffers level).size)
             depth := level, tag := 0 } := by
  have hgh : AllSucceed (if q.nresults = q.nheaders then (Heap.request heap).2 else heap) := by
    split
    · exact (request_of_allSucceed hh).2
    · exact hh
  obtain ⟨c1, c2, c3⟩ := pushResult_core q level heap hq
    (fun _ => (request_of_allSucceed hh).1) (request_of_allSucceed hgh).1
  refine ⟨c1, ?_, c3⟩
  rw [c2]
  exact (request_of_allSucceed hgh).2

theorem take_congr_of_getElem? {α : Type} (l₁ l₂ : List α) (n : Nat)
    (h : ∀ i, i < n → l₁[i]? = l₂[i]?) : l₁.take n = l₂.take n := by
  apply List.ext_getElem?
  intro i
  rw [List.getElem?_take, List.getElem?_take]
  split
  · next hi => exact h i hi
  · rfl

/-- Appending one header to the populated part of the block. -/
theorem populated_append (q q' : QueryOperation) (h : QueryResultHeader)
    (hn : q'.nresults = q.nresults + 1)
    (hold : ∀ i, i < q.nresults → q'.results[i]? = q.results[i]?)
    (hnew : q'.results[q.nresults]? = some h) :
    populated q' = populated q ++ [h] := by
  unfold populated
  rw [hn, List.take_succ, hnew, take_congr_of_getElem? _ _ _ hold]
  rfl

/-- What `pushResultIfChanged` does when the allocator answers every request. -/
theorem pushResultIfChanged_spec (q : QueryOperation) (level : Nat) (heap : Heap)
    (prev : Nat → Option Bytes) (ht : Tracks q prev) (hh : AllSucceed heap)
    (hl : level < q.depth)
    (hlen : (q.buffers level).buffer.length = (q.buffers level).size) :
    (pushResultIfChanged q level heap).ok = true ∧
    AllSucceed (pushResultIfChanged q level heap).heap ∧
    (pushResultIfChanged q level heap).q.depth = q.depth ∧
    (pushResultIfChanged q level heap).q.latest_error = q.latest_error ∧
    (∀ l, ((pushResultIfChanged q level heap).q.buffers l).buffer = (q.buffers l).buffer ∧
          ((pushResultIfChanged q level heap).q.buffers l).size = (q.buffers l).size) ∧
    Tracks (pushResultIfChanged q level heap).q
      (Function.update prev level (some (q.buffers level).buffer)) ∧
    populated (pushResultIfChanged q level heap).q =
      populated q ++
        (if prev level = some (q.buffers level).buffer then []
         else [QueryResultHeader.copyOf level (q.buffers level).buffer]) := by
  have htake : (q.buffers level).buffer.take (q.buffers level).size = (q.buffers level).buffer :=
    List.take_of_length_le (le_of_eq hlen)
  have hcase :
      (prev level = some (q.buffers level).buffer ∧
        pushResultIfChanged q level heap = { ok := true, q := q, heap := heap }) ∨
      (prev level ≠ some (q.buffers level).buffer ∧
        pushResultIfChanged q level heap = pushResult q level heap) := by
    cases hp : prev level with
    | none =>
      have h0 := ht.none_yet level hl hp
      exact Or.inr ⟨fun h => Option.noConfusion h, by simp [pushResultIfChanged, h0]⟩
    | some b =>
      obtain ⟨c1, c2, c3, c4⟩ := ht.copied level b hl hp
      have hb : b.take (q.buffers level).size = b := List.take_of_length_le (le_of_eq c4)
      by_cases hsame : b = (q.buffers level).buffer
      · refine Or.inl ⟨by rw [hsame], ?_⟩
        simp [pushResultIfChanged, c1, List.getD_eq_getElem?_getD, c3,
          QueryResultHeader.copyOf, sameBytes, hb, htake, hsame]
      · refine Or.inr ⟨fun h => hsame (Option.some.inj h), ?_⟩
        simp [pushResultIfChanged, c1, List.getD_eq_getElem?_getD, c3,
          QueryResultHeader.copyOf, sameBytes, hb, htake, hsame]
  rcases hcase with ⟨hsame, heq⟩ | ⟨hne, heq⟩
  · rw [heq]
    refine ⟨rfl, hh, rfl, rfl, fun _ => ⟨rfl, rfl⟩, ?_, ?_⟩
    · have : Function.update prev level (some (q.buffers level).buffer) = prev := by
        rw [← hsame]; exact Function.update_eq_self _ _
      rw [this]; exact ht
    · simp [hsame]
  · rw [heq]
    obtain ⟨p1, p2, p3, p4, p5, p6, p7, p8, p9⟩ := pushResult_spec q level heap ht.wf hh
    rw [htake] at p9
    refine ⟨p1, p2, p4, p5, ?_, ⟨p3, ?_, ?_⟩, ?_⟩
    · intro l
      rw [p7]
      by_cases hll : l = level
      · subst hll; simp
      · simp [Function.update_noteq hll]
    · intro l hld hnone
      rw [p4] at hld
      by_cases hll : l = level
      · subst hll; simp at hnone
      · rw [Function.update_noteq hll] at hnone
        rw [p7, Function.update_noteq hll]
        exact ht.none_yet l hld hnone
    · intro l b hld hsome
      rw [p4] at hld
      by_cases hll : l = level
      · subst hll
        simp only [Function.update_same, Option.some.injEq] at hsome
        subst hsome
        rw [p7, p6]
        simp only [Function.update_same, Nat.add_sub_cancel]
        exact ⟨Nat.succ_pos _, le_refl _, p9, hlen⟩
      · rw [Function.update_noteq hll] at hsome
        obtain ⟨c1, c2, c3, c4⟩ := ht.copied l b hld hsome
        rw [p7, p6, Function.update_noteq hll]
        refine ⟨c1, by omega, ?_, c4⟩
        rw [p8 _ (by omega)]
        exact c3
    · rw [if_neg hne]
      exact populated_append q _ _ p6 p8 p9

theorem stepHeaders_congr (p p' : Nat → Option Bytes) (row : Nat → Bytes) (todo : Nat) :
    ∀ level, (∀ l, level ≤ l → p l = p' l) →
      stepHeaders p row todo level = stepHeaders p' row todo level := by
  induction todo with
  | zero => intro level _; rfl
  | succ todo ih =>
    intro level h
    simp only [stepHeaders]
    rw [h level (le_refl _), ih (level + 1) (fun l hl => h l (by omega))]

theorem seenAfter_succ (prev : Nat → Option Bytes) (row : Nat → Bytes) (level todo : Nat) :
    seenAfter (Function.update prev level (some (row level))) row (level + 1) todo =
      seenAfter prev row level (todo + 1) := by
  funext l
  unfold seenAfter
  by_cases h1 : level + 1 ≤ l ∧ l < level + 1 + todo
  · rw [if_pos h1, if_pos (by omega)]
  · rw [if_neg h1]
    by_cases h2 : l = level
    · subst h2
      rw [Function.update_same, if_pos (by omega)]
    · rw [Function.update_noteq h2, if_neg (by omega)]

/-- The loop over the levels when the allocator answers every request. -/
theorem forEachLevel_spec (row : Nat → Bytes) (todo : Nat) :
    ∀ (level : Nat) (q : QueryOperation) (heap : Heap) (calls : List Call)
      (prev : Nat → Option Bytes),
      Tracks q prev → AllSucceed heap → level + todo ≤ q.depth →
      (∀ l, l < q.depth → (q.buffers l).buffer = row l ∧ (row l).length = (q.buffers l).size) →
      (forEachLevel todo level q heap calls).ok = true ∧
      AllSucceed (forEachLevel todo level q heap calls).heap ∧
      (forEachLevel todo level q heap calls).q.depth = q.depth ∧
      (forEachLevel todo level q heap calls).q.latest_error = q.latest_error ∧
      (∀ l, ((forEachLevel todo level q heap calls).q.buffers l).size = (q.buffers l).size) ∧
      Tracks (forEachLevel todo level q heap calls).q (seenAfter prev row level todo) ∧
      populated (forEachLevel todo level q heap calls).q =
        populated q ++ stepHeaders prev row todo level := by
  induction todo with
  | zero =>
    intro level q heap calls prev ht hh _ _
    refine ⟨rfl, hh, rfl, rfl, fun _ => rfl, ?_, by simp [forEachLevel, stepHeaders]⟩
    have : seenAfter prev row level 0 = prev := by
      funext l
      unfold seenAfter
      rw [if_neg (by omega)]
    rw [this]
    exact ht
  | succ todo ih =>
    intro level q heap calls prev ht hh hle hrow
    have hl : level < q.depth := by omega
    have hb := hrow level hl
    obtain ⟨p1, p2, p3, p4, p5, p6, p7⟩ :=
      pushResultIfChanged_spec q level heap prev ht hh hl (by rw [hb.1]; exact hb.2)
    rw [hb.1] at p6 p7
    simp only [forEachLevel, p1, if_true]
    obtain ⟨i1, i2, i3, i4, i5, i6, i7⟩ :=
      ih (level + 1) (pushResultIfChanged q level heap).q (pushResultIfChanged q level heap).heap
        (calls ++ [Call.pushResultIfChanged level true])
        (Function.update prev level (some (row level))) p6 p2 (by rw [p3]; omega)
        (fun l hld => by
          rw [p3] at hld
          rw [(p5 l).1, (p5 l).2]
          exact hrow l hld)
    refine ⟨i1, i2, by rw [i3, p3], by rw [i4, p4], fun l => by rw [i5, (p5 l).2], ?_, ?_⟩
    · rw [← seenAfter_succ]; exact i6
    · rw [i7, p7, List.append_assoc]
      congr 2
      apply stepHeaders_congr
      intro l hl'
      rw [Function.update_noteq (by omega)]

theorem tracks_receiveRow (q : QueryOperation) (row : Nat → Bytes)
    (prev : Nat → Option Bytes) (ht : Tracks q prev) :
    Tracks (receiveRow q row) prev := by
  have hbuf : ∀ l, ((receiveRow q row).buffers l).lastCopy = (q.buffers l).lastCopy ∧
      ((receiveRow q row).buffers l).size = (q.buffers l).size := by
    intro l
    simp only [receiveRow]
    split <;> exact ⟨rfl, rfl⟩
  refine ⟨⟨ht.wf.block, ht.wf.inside, ht.wf.grows, ht.wf.spare⟩, ?_, ?_⟩
  · intro l hl hp
    rw [(hbuf l).1]
    exact ht.none_yet l hl hp
  · intro l b hl hp
    rw [(hbuf l).1, (hbuf l).2]
    exact ht.copied l b hl hp

/-- A run of `gotRow` steps when the allocator answers every request: the loop goes on
with the rest of the cursor, and the populated headers are extended by the segments
of the steps. -/
theorem whileMore_rows (tail : List CursorEvent) (rows : List (Nat → Bytes)) :
    ∀ (status : NextResultOutcome) (q : QueryOperation) (heap : Heap) (calls : List Call)
      (prev : Nat → Option Bytes),
      more status = true → Tracks q prev → AllSucceed heap →
      (∀ row, row ∈ rows → ∀ l, l < q.depth → (row l).length = (q.buffers l).size) →
      ∃ (status' : NextResultOutcome) (q' : QueryOperation) (heap' : Heap) (calls' : List Call),
        whileMore (rows.map CursorEvent.gotRow ++ tail) status q heap calls =
          whileMore tail status' q' heap' calls' ∧
        more status' = true ∧ AllSucceed heap' ∧ q'.depth = q.depth ∧
        q'.latest_error = q.latest_error ∧
        Tracks q' (seenRows q.depth prev rows) ∧
        populated q' = populated q ++ (segments q.depth prev rows).flatten := by
  induction rows with
  | nil =>
    intro status q heap calls prev hm ht hh _
    exact ⟨status, q, heap, calls, rfl, hm, hh, rfl, rfl, ht, by simp [segments]⟩
  | cons row rows ih =>
    intro status q heap calls prev hm ht hh hrows
    have hrec : ∀ l, l < (receiveRow q row).depth →
        ((receiveRow q row).buffers l).buffer = row l ∧
        (row l).length = ((receiveRow q row).buffers l).size := by
      intro l hl
      have hl' : l < q.depth := hl
      simp only [receiveRow, if_pos hl']
      exact ⟨trivial, hrows row (List.mem_cons_self _ _) l hl'⟩
    have hsz : ∀ l, ((receiveRow q row).buffers l).size = (q.buffers l).size := by
      intro l
      simp only [receiveRow]
      split <;> rfl
    have hstep : whileMore ((row :: rows).map CursorEvent.gotRow ++ tail) status q heap calls =
        whileMore (rows.map CursorEvent.gotRow ++ tail) NextResultOutcome.NextResult_gotRow
          (forEachLevel q.depth 0 (receiveRow q row) heap
            (calls ++ [Call.nextResult NextResultOutcome.NextResult_gotRow])).q
          (forEachLevel q.depth 0 (receiveRow q row) heap
            (calls ++ [Call.nextResult NextResultOutcome.NextResult_gotRow])).heap
          (forEachLevel q.depth 0 (receiveRow q row) heap
            (calls ++ [Call.nextResult NextResultOutcome.NextResult_gotRow])).calls := by
      have f1 := (forEachLevel_spec row q.depth 0 (receiveRow q row) heap
        (calls ++ [Call.nextResult NextResultOutcome.NextResult_gotRow]) prev
        (tracks_receiveRow q row prev ht) hh (by show 0 + q.depth ≤ q.depth; omega) hrec).1
      simp only [List.map_cons, List.cons_append, whileMore, hm, if_true]
      show (if (forEachLevel q.depth 0 (receiveRow q row) heap
            (calls ++ [Call.nextResult NextResultOutcome.NextResult_gotRow])).ok = true
          then _ else _) = _
      rw [if_pos f1]
      rfl
    obtain ⟨-, f2, f3, f4, f5, f6, f7⟩ :=
      forEachLevel_spec row q.depth 0 (receiveRow q row) heap
        (calls ++ [Call.nextResult NextResultOutcome.NextResult_gotRow]) prev
        (tracks_receiveRow q row prev ht) hh (by show 0 + q.depth ≤ q.depth; omega) hrec
    rw [hstep]
    generalize forEachLevel q.depth 0 (receiveRow q row) heap
        (calls ++ [Call.nextResult NextResultOutcome.NextResult_gotRow]) = r at f2 f3 f4 f5 f6 f7 ⊢
    have f3' : r.q.depth = q.depth := f3
    have f4' : r.q.latest_error = q.latest_error := f4
    have f7' : populated r.q = populated q ++ stepHeaders prev row q.depth 0 := f7
    obtain ⟨s', q', heap', calls', e1, e2, e3, e4, e5, e6, e7⟩ :=
      ih NextResultOutcome.NextResult_gotRow r.q r.heap r.calls
        (seenAfter prev row 0 q.depth) rfl f6 f2
        (fun r' hr l hl => by
          rw [f3'] at hl
          rw [f5, hsz]
          exact hrows r' (List.mem_cons_of_mem _ hr) l hl)
    rw [f3'] at e6 e7
    refine ⟨s', q', heap', calls', e1, e2, e3, by rw [e4, f3'], by rw [e5, f4'], e6, ?_⟩
    rw [e7, f7']
    simp [segments]

theorem filter_stepHeaders (prev : Nat → Option Bytes) (row : Nat → Bytes) (l todo : Nat) :
    ∀ level, (stepHeaders prev row todo level).filter (fun h => decide (h.depth = l)) =
      if level ≤ l ∧ l < level + todo ∧ prev l ≠ some (row l)
        then [QueryResultHeader.copyOf l (row l)] else [] := by
  induction todo with
  | zero =>
    intro level
    rw [if_neg (by omega)]
    rfl
  | succ todo ih =>
    intro level
    rw [stepHeaders, List.filter_append, ih (level + 1)]
    by_cases hl : level = l
    · subst hl
      have hno : ¬ (level + 1 ≤ level ∧ level < level + 1 + todo ∧
          prev level ≠ some (row level)) := fun h => by omega
      rw [if_neg hno, List.append_nil]
      by_cases hp : prev level = some (row level)
      · rw [if_pos hp, if_neg (fun h => h.2.2 hp)]
        rfl
      · rw [if_neg hp, if_pos ⟨le_refl _, by omega, hp⟩]
        simp [QueryResultHeader.copyOf]
    · have h1 : (if prev level = some (row level) then []
          else [QueryResultHeader.copyOf level (row level)]).filter
            (fun h => decide (h.depth = l)) = [] := by
        split
        · rfl
        · simp [QueryResultHeader.copyOf, hl]
      rw [h1, List.nil_append]
      by_cases hc : level + 1 ≤ l ∧ l < level + 1 + todo ∧ prev l ≠ some (row l)
      · rw [if_pos hc, if_pos ⟨by omega, by omega, hc.2.2⟩]
      · rw [if_neg hc, if_neg (fun h => hc ⟨by omega, by omega, h.2.2⟩)]

/-- The headers of one level among the expected ones. -/
theorem filter_segments (depth l : Nat) (hl : l < depth) (rows : List (Nat → Bytes)) :
    ∀ prev : Nat → Option Bytes,
      (segments depth prev rows).flatten.filter (fun h => decide (h.depth = l)) =
        (collapseFrom (prev l) (rows.map (fun row => row l))).map
          (QueryResultHeader.copyOf l) := by
  induction rows with
  | nil => intro prev; rfl
  | cons row rows ih =>
    intro prev
    simp only [segments, List.flatten_cons, List.filter_append, filter_stepHeaders, ih,
      List.map_cons, collapseFrom]
    have hs : seenAfter prev row 0 depth l = some (row l) := by
      unfold seenAfter
      rw [if_pos ⟨Nat.zero_le _, by omega⟩]
    rw [hs]
    by_cases hp : prev l = some (row l)
    · rw [if_neg (fun h => h.2.2 hp), if_pos hp, hp]
      rfl
    · rw [if_pos ⟨Nat.zero_le _, by omega, hp⟩, if_neg hp]
      rfl

theorem length_collapseFrom (bs : List Bytes) :
    ∀ last : Option Bytes, (collapseFrom last bs).length = changes last bs := by
  induction bs with
  | nil => intro last; rfl
  | cons b bs ih =>
    intro last
    simp only [collapseFrom, changes]
    split
    · exact ih last
    · simp [ih]

theorem destutter'_head (a : Bytes) (bs : List Bytes) :
    List.destutter' (fun x y => x ≠ y) a bs =
      a :: collapseFrom (some a) bs := by
  induction bs generalizing a with
  | nil => rfl
  | cons b bs ih =>
    rw [List.destutter'_cons]
    simp only [collapseFrom]
    by_cases h : a = b
    · subst h
      simp [ih]
    · rw [if_pos h, if_neg (fun h' => h (Option.some.inj h')), ih b]

/-- Leaving out the steps that repeat the bytes kept before is `List.destutter`. -/
theorem collapseFrom_none (bs : List Bytes) :
    collapseFrom none bs = List.destutter (fun x y => x ≠ y) bs := by
  cases bs with
  | nil => rfl
  | cons b bs =>
    rw [List.destutter_cons', destutter'_head]
    simp [collapseFrom]

theorem stepHeaders_shape (prev : Nat → Option Bytes) (row : Nat → Bytes) (todo : Nat) :
    ∀ level,
      (∀ h, h ∈ stepHeaders prev row todo level →
        level ≤ h.depth ∧ h.depth < level + todo ∧ h = QueryResultHeader.copyOf h.depth (row h.depth)) ∧
      (stepHeaders prev row todo level).Pairwise (fun a b => a.depth < b.depth) := by
  induction todo with
  | zero =>
    intro level
    exact ⟨fun h hh => absurd hh (List.not_mem_nil _), List.Pairwise.nil⟩
  | succ todo ih =>
    intro level
    obtain ⟨i1, i2⟩ := ih (level + 1)
    have hfirst : ∀ h, h ∈ (if prev level = some (row level) then []
        else [QueryResultHeader.copyOf level (row level)]) →
        h = QueryResultHeader.copyOf level (row level) := by
      intro h hh
      split at hh
      · exact absurd hh (List.not_mem_nil _)
      · exact List.mem_singleton.mp hh
    constructor
    · intro h hh
      simp only [stepHeaders, List.mem_append] at hh
      rcases hh with hh | hh
      · have := hfirst h hh
        subst this
        exact ⟨le_refl _, by simp [QueryResultHeader.copyOf], rfl⟩
      · obtain ⟨a, b, c⟩ := i1 h hh
        exact ⟨by omega, by omega, c⟩
    · simp only [stepHeaders]
      rw [List.pairwise_append]
      refine ⟨?_, i2, ?_⟩
      · split
        · exact List.Pairwise.nil
        · exact List.pairwise_singleton _ _
      · intro a ha b hb
        have := hfirst a ha
        subst this
        have := (i1 b hb).1
        show level < b.depth
        omega

/-- The expected headers come in one segment per cursor step; within a segment the
levels increase strictly, and each header is the copy of the row of its level. -/
theorem segments_shape (depth : Nat) (rows : List (Nat → Bytes)) :
    ∀ prev : Nat → Option Bytes,
      List.Forall₂
        (fun (seg : List QueryResultHeader) (row : Nat → Bytes) =>
          seg.Pairwise (fun a b => a.depth < b.depth) ∧
          ∀ h, h ∈ seg → h.depth < depth ∧ h = QueryResultHeader.copyOf h.depth (row h.depth))
        (segments depth prev rows) rows := by
  induction rows with
  | nil => intro prev; exact List.Forall₂.nil
  | cons row rows ih =>
    intro prev
    refine List.Forall₂.cons ?_ (ih _)
    obtain ⟨s1, s2⟩ := stepHeaders_shape prev row depth 0
    refine ⟨s2, fun h hh => ?_⟩
    obtain ⟨_, b, c⟩ := s1 h hh
    exact ⟨by omega, c⟩

theorem tracks_of_isNew (q : QueryOperation) (h : IsNew q) : Tracks q (fun _ => none) := by
  obtain ⟨h1, h2, h3, h4, h5⟩ := h
  refine ⟨⟨by rw [h1, h3]; rfl, by rw [h2, h3], by rw [h3, h4]; decide, ?_⟩, ?_, ?_⟩
  · intro i _ hi
    rw [h3] at hi
    exact absurd hi (Nat.not_lt_zero _)
  · intro l hl _
    exact h5 l hl
  · intro l b _ hb
    exact Option.noConfusion hb

theorem length_populated (q : QueryOperation) (hq : WellFormed q) :
    (populated q).length = q.nresults := by
  unfold populated
  rw [List.length_take, hq.block]
  exact Nat.min_eq_left hq.inside

/-- A scan that delivers `rows` and completes, on a new object and with an allocator
that answers every request: `fetchAllResults` returns the count, and the populated
headers are the expected segments. -/
theorem fetchAllResults_rows (q : QueryOperation) (rows : List (Nat → Bytes)) (heap : Heap)
    (hnew : IsNew q) (hheap : AllSucceed heap)
    (hsizes : ∀ row, row ∈ rows → ∀ l, l < q.depth → (row l).length = (q.buffers l).size) :
    ∃ r : FetchResult,
      fetchAllResults q (rows.map CursorEvent.gotRow ++ [CursorEvent.scanComplete]) heap
        = some r ∧
      r.ret = (r.q.nresults : Int) ∧ (populated r.q).length = r.q.nresults ∧
      r.q.depth = q.depth ∧ WellFormed r.q ∧
      populated r.q = (segments q.depth (fun _ => none) rows).flatten := by
  obtain ⟨s', q', heap', calls', e1, e2, e3, e4, e5, e6, e7⟩ :=
    whileMore_rows [CursorEvent.scanComplete] rows NextResultOutcome.NextResult_bufferEmpty
      q heap [] (fun _ => none) rfl (tracks_of_isNew q hnew) hheap hsizes
  have hp0 : populated q = [] := by
    unfold populated
    rw [hnew.1]
    exact List.take_nil
  refine ⟨{ ret := q'.nresults, q := q', heap := heap', cursor := []
            calls := calls' ++ [Call.nextResult NextResultOutcome.NextResult_scanComplete] },
    ?_, rfl, length_populated q' e6.wf, e4, e6.wf, ?_⟩
  · unfold fetchAllResults
    rw [e1]
    have hsc : more NextResultOutcome.NextResult_scanComplete = false := rfl
    simp [whileMore, e2, hsc, CursorEvent.status]
  · show populated q' = _
    rw [e7, hp0, List.nil_append]

theorem getResult_eq_populated (q : QueryOperation) (hq : WellFormed q) (id : Nat) :
    getResult q id =
      match (populated q)[id]? with
      | some h => HeaderPtr.header h
      | none => HeaderPtr.null := by
  unfold getResult populated
  rw [List.getElem?_take]
  by_cases hid : id < q.nresults
  · rw [if_pos hid, if_pos hid]
    have hlt : id < q.results.length := by
      rw [hq.block]
      exact lt_of_lt_of_le hid hq.inside
    rw [List.getElem?_eq_getElem hlt]
  · rw [if_neg hid, if_neg hid]

theorem isNew_preparedPlan (depth : Nat) (sizes : Nat → Nat) :
    IsNew (preparedPlan depth sizes) ∧ (preparedPlan depth sizes).depth = depth ∧
    ∀ l, l < depth → ((preparedPlan depth sizes).buffers l).size = sizes l := by
  unfold preparedPlan
  have key : ∀ (n : Nat),
      IsNew ((List.range n).foldl
        (fun q level => q.createRowBuffer level { getBufferSize := sizes level })
        (newQueryOperation depth)) ∧
      ((List.range n).foldl
        (fun q level => q.createRowBuffer level { getBufferSize := sizes level })
        (newQueryOperation depth)).depth = depth ∧
      (∀ l, (((List.range n).foldl
        (fun q level => q.createRowBuffer level { getBufferSize := sizes level })
        (newQueryOperation depth)).buffers l).lastCopy = 0) ∧
      ∀ l, l < n → (((List.range n).foldl
        (fun q level => q.createRowBuffer level { getBufferSize := sizes level })
        (newQueryOperation depth)).buffers l).size = sizes l := by
    intro n
    induction n with
    | zero =>
      refine ⟨⟨rfl, rfl, rfl, rfl, fun _ _ => rfl⟩, rfl, fun _ => rfl, ?_⟩
      intro l hl
      exact absurd hl (Nat.not_lt_zero _)
    | succ n ih =>
      rw [List.range_succ, List.foldl_append]
      obtain ⟨⟨a1, a2, a3, a4, _⟩, b, c, d⟩ := ih
      have hc : ∀ l, ((QueryOperation.createRowBuffer ((List.range n).foldl
          (fun q level => q.createRowBuffer level { getBufferSize := sizes level })
          (newQueryOperation depth)) n { getBufferSize := sizes n }).buffers l).lastCopy = 0 := by
        intro l
        simp only [createRowBuffer]
        by_cases hl : l = n
        · subst hl
          simp only [Function.update_same]
          exact c l
        · rw [Function.update_noteq hl]
          exact c l
      refine ⟨⟨a1, a2, a3, a4, fun l _ => hc l⟩, b, hc, ?_⟩
      intro l hl
      simp only [List.foldl_cons, List.foldl_nil, createRowBuffer]
      by_cases hln : l = n
      · subst hln
        simp
      · rw [Function.update_noteq hln]
        exact d l (by omega)
  obtain ⟨k1, k2, _, k4⟩ := key depth
  exact ⟨k1, k2, k4⟩

/-- C1: starting from a new QueryOperation (every `lastCopy` zero), for every depth,
every level below the depth and every finite sequence of rows delivered by the cursor
and ended by "scan complete", with no allocation failure, the number of headers that
`fetchAllResults` appends with that level is the number of cursor steps at which the
bytes of the level's buffer differed from the bytes of the most recently materialised
header of the level (the first step counting as a difference). -/
theorem C1_dedup_count (q : QueryOperation) (rows : List (Nat → Bytes)) (heap : Heap)
    (level : Nat) (hnew : IsNew q) (hlevel : level < q.depth) (hheap : AllSucceed heap)
    (hsizes : ∀ row, row ∈ rows → ∀ l, l < q.depth → (row l).length = (q.buffers l).size) :
    ∃ r : FetchResult,
      fetchAllResults q (rows.map CursorEvent.gotRow ++ [CursorEvent.scanComplete]) heap
        = some r ∧
      ((populated r.q).filter (fun h => decide (h.depth = level))).length =
        changes none (rows.map (fun row => row level)) := by
  obtain ⟨r, h1, _, _, _, _, h6⟩ := fetchAllResults_rows q rows heap hnew hheap hsizes
  refine ⟨r, h1, ?_⟩
  rw [h6, filter_segments q.depth level hlevel rows, List.length_map, length_collapseFrom]

/-- Witness of C1: the two-level sample scan, at level 1. -/
theorem C1_dedup_count_witness :
    ∃ r : FetchResult,
      fetchAllResults (preparedPlan 2 (fun _ => 1))
        (sampleRows.map CursorEvent.gotRow ++ [CursorEvent.scanComplete]) [] = some r ∧
      ((populated r.q).filter (fun h => decide (h.depth = 1))).length =
        changes none (sampleRows.map (fun row => row 1)) :=
  C1_dedup_count (preparedPlan 2 (fun _ => 1)) sampleRows [] 1
    (isNew_preparedPlan 2 (fun _ => 1)).1 (by decide) (by simp [AllSucceed])
    (by
      intro row hrow l hl
      have hl2 : l < 2 := hl
      rw [(isNew_preparedPlan 2 (fun _ => 1)).2.2 l hl2]
      simp only [sampleRows, List.mem_cons, List.mem_singleton, List.not_mem_nil, or_false] at hrow
      rcases hrow with h | h | h <;> subst h <;> interval_cases l <;> rfl)

/-- C2: for every sequence of rows delivered by the cursor and ended by "scan
complete", with no allocation failure, `getResult` reads the populated headers in
flat-index order; the headers of a level are, in that order, the copies (tagged with
the level) of the level's buffer contents at the cursor steps with consecutive
byte-identical repeats collapsed to one; the headers come in one segment per cursor
step, with strictly increasing levels inside a segment; and a depth-1 plan whose cursor
delivers one row ends with count 1 and `getResult(0)` the level-0 copy of that row. -/
theorem C2_payloads_in_cursor_order (q : QueryOperation) (rows : List (Nat → Bytes))
    (heap : Heap) (hnew : IsNew q) (hheap : AllSucceed heap)
    (hsizes : ∀ row, row ∈ rows → ∀ l, l < q.depth → (row l).length = (q.buffers l).size) :
    ∃ r : FetchResult,
      fetchAllResults q (rows.map CursorEvent.gotRow ++ [CursorEvent.scanComplete]) heap
        = some r ∧
      r.ret = ((populated r.q).length : Int) ∧
      (∀ id, getResult r.q id =
        match (populated r.q)[id]? with
        | some h => HeaderPtr.header h
        | none => HeaderPtr.null) ∧
      (∀ level, level < q.depth →
        (populated r.q).filter (fun h => decide (h.depth = level)) =
          (List.destutter (fun x y => x ≠ y) (rows.map (fun row => row level))).map
            (QueryResultHeader.copyOf level)) ∧
      (∃ segs : List (List QueryResultHeader),
        populated r.q = segs.flatten ∧
        List.Forall₂
          (fun (seg : List QueryResultHeader) (row : Nat → Bytes) =>
            seg.Pairwise (fun a b => a.depth < b.depth) ∧
            ∀ h, h ∈ seg →
              h.depth < q.depth ∧ h = QueryResultHeader.copyOf h.depth (row h.depth))
          segs rows) ∧
      (q.depth = 1 → ∀ row, rows = [row] →
        r.ret = 1 ∧ getResult r.q 0 = HeaderPtr.header (QueryResultHeader.copyOf 0 (row 0))) := by
  obtain ⟨r, h1, h2, h3, h4, h5, h6⟩ := fetchAllResults_rows q rows heap hnew hheap hsizes
  refine ⟨r, h1, by rw [h2, h3], getResult_eq_populated r.q h5, ?_, ?_, ?_⟩
  · intro level hlevel
    rw [h6, filter_segments q.depth level hlevel rows, collapseFrom_none]
  · exact ⟨_, h6, segments_shape q.depth rows _⟩
  · intro hd row hrows
    have hpop : populated r.q = [QueryResultHeader.copyOf 0 (row 0)] := by
      rw [h6, hrows, hd]
      simp [segments, stepHeaders]
    constructor
    · rw [h2, ← h3, hpop]
      rfl
    · rw [getResult_eq_populated r.q h5, hpop]
      rfl

/-- Witness of C2: the two-level sample scan. -/
theorem C2_payloads_in_cursor_order_witness :
    ∃ r : FetchResult,
      fetchAllResults (preparedPlan 2 (fun _ => 1))
        (sampleRows.map CursorEvent.gotRow ++ [CursorEvent.scanComplete]) [] = some r ∧
      r.ret = ((populated r.q).length : Int) ∧
      (populated r.q).filter (fun h => decide (h.depth = 1)) =
        (List.destutter (fun x y => x ≠ y) (sampleRows.map (fun row => row 1))).map
          (QueryResultHeader.copyOf 1) := by
  obtain ⟨r, h1, h2, _, h4, _⟩ :=
    C2_payloads_in_cursor_order (preparedPlan 2 (fun _ => 1)) sampleRows []
      (isNew_preparedPlan 2 (fun _ => 1)).1 (by simp [AllSucceed])
      (by
        intro row hrow l hl
        have hl2 : l < 2 := hl
        rw [(isNew_preparedPlan 2 (fun _ => 1)).2.2 l hl2]
        simp only [sampleRows, List.mem_cons, List.mem_singleton, List.not_mem_nil,
          or_false] at hrow
        rcases hrow with h | h | h <;> subst h <;> interval_cases l <;> rfl)
  exact ⟨r, h1, h2, h4 1 (by decide)⟩

theorem pushResultIfChanged_cases (q : QueryOperation) (level : Nat) (heap : Heap) :
    pushResultIfChanged q level heap = { ok := true, q := q, heap := heap } ∨
    pushResultIfChanged q level heap = pushResult q level heap := by
  unfold pushResultIfChanged
  dsimp only
  split
  · exact Or.inl rfl
  · exact Or.inr rfl

theorem reachInv_of_reachedWith (depth : Nat) (q : QueryOperation)
    (copied : Nat → Option Bytes) (h : ReachedWith depth q copied) :
    ReachInv depth q copied := by
  induction h with
  | new =>
    refine ⟨rfl, ⟨rfl, le_refl _, ?_, ?_⟩, ?_, fun _ _ _ => rfl, ?_⟩
    · show 0 < 1024
      decide
    · intro i _ hi
      exact absurd hi (Nat.not_lt_zero _)
    · intro i h hi _
      exact absurd hi (Nat.not_lt_zero _)
    · intro l b _ hb
      exact Option.noConfusion hb
  | createRowBuffer q copied level record _ _ ih =>
    have hbuf : ∀ l, ((q.createRowBuffer level record).buffers l).lastCopy =
        (q.buffers l).lastCopy := by
      intro l
      simp only [createRowBuffer]
      by_cases hl : l = level
      · subst hl; simp
      · rw [Function.update_noteq hl]
    refine ⟨ih.depth_eq, ⟨ih.wf.block, ih.wf.inside, ih.wf.grows, ih.wf.spare⟩, ih.levels, ?_, ?_⟩
    · intro l hl hc
      rw [hbuf]
      exact ih.none_yet l hl hc
    · intro l b hl hc
      rw [hbuf]
      exact ih.copied_at l b hl hc
  | receiveRow q copied row _ ih =>
    have hbuf : ∀ l, ((q.receiveRow row).buffers l).lastCopy = (q.buffers l).lastCopy := by
      intro l
      simp only [receiveRow]
      split <;> rfl
    refine ⟨ih.depth_eq, ⟨ih.wf.block, ih.wf.inside, ih.wf.grows, ih.wf.spare⟩, ih.levels, ?_, ?_⟩
    · intro l hl hc
      rw [hbuf]
      exact ih.none_yet l hl hc
    · intro l b hl hc
      rw [hbuf]
      exact ih.copied_at l b hl hc
  | push q copied level heap _ hlevel hok ih =>
    rcases pushResultIfChanged_cases q level heap with heq | heq
    · rw [heq]
      rw [if_neg (fun h => h.2 rfl)]
      exact ih
    · rw [heq] at hok ⊢
      have hgrow : q.nresults = q.nheaders → (Heap.request heap).1 = true := by
        rcases hok with hok | hok
        · exact (requests_of_pushResult_ok q level heap ih.wf hok).1
        · exact hok
      by_cases hm : (Heap.request
          (if q.nresults = q.nheaders then (Heap.request heap).2 else heap)).1 = true
      · obtain ⟨p1, _, p3, p4, _, p6, p7, p8, p9⟩ :=
          pushResult_core q level heap ih.wf hgrow hm
        rw [if_pos ⟨p1, by rw [p6]; omega⟩]
        refine ⟨by rw [p4]; exact ih.depth_eq, p3, ?_, ?_, ?_⟩
        · intro i h hi hh
          rw [p6] at hi
          by_cases hin : i = q.nresults
          · subst hin
            rw [p9] at hh
            rw [← Option.some.inj hh]
            exact hlevel
          · rw [p8 i (by omega)] at hh
            exact ih.levels i h (by omega) hh
        · intro l hl hc
          by_cases hll : l = level
          · subst hll; simp at hc
          · rw [Function.update_noteq hll] at hc
            rw [p7, Function.update_noteq hll]
            exact ih.none_yet l hl hc
        · intro l b hl hc
          by_cases hll : l = level
          · subst hll
            simp only [Function.update_same, Option.some.injEq] at hc
            subst hc
            rw [p7, p6]
            simp only [Function.update_same, Nat.add_sub_cancel]
            exact ⟨Nat.succ_pos _, le_refl _, p9⟩
          · rw [Function.update_noteq hll] at hc
            obtain ⟨c1, c2, c3⟩ := ih.copied_at l b hl hc
            rw [p7, p6, Function.update_noteq hll]
            refine ⟨c1, by omega, ?_⟩
            rw [p8 _ (by omega)]
            exact c3
      · obtain ⟨p1, p3, p4, p6, p7, p8, p9⟩ :=
          pushResult_nomem q level heap ih.wf hgrow hm
        rw [if_neg (fun h => by rw [p1] at h; exact Bool.noConfusion h.1)]
        refine ⟨by rw [p4]; exact ih.depth_eq, p3, ?_, ?_, ?_⟩
        · intro i h hi hh
          rw [p6] at hi
          by_cases hin : i = q.nresults
          · subst hin
            rw [p9] at hh
            rw [← Option.some.inj hh]
            exact Nat.lt_of_le_of_lt (Nat.zero_le _) hlevel
          · rw [p8 i (by omega)] at hh
            exact ih.levels i h (by omega) hh
        · intro l hl hc
          rw [p7]
          exact ih.none_yet l hl hc
        · intro l b hl hc
          obtain ⟨c1, c2, c3⟩ := ih.copied_at l b hl hc
          rw [p7, p6]
          refine ⟨c1, by omega, ?_⟩
          rw [p8 _ (by omega)]
          exact c3

theorem reachedWith_onePush :
    ReachedWith 1 onePush (Function.update (fun _ => none) 0 (some [7])) :=
  ReachedWith.push _ _ 0 []
    (ReachedWith.receiveRow _ _ _
      (ReachedWith.createRowBuffer _ _ 0 { getBufferSize := 1 } ReachedWith.new (by decide)))
    (by decide) (Or.inl (by decide))

/-- Every entry below the populated count survives `pushResult`, whatever the answer
to the payload request, provided the growth (if one is due) succeeds. -/
theorem pushResult_below (q : QueryOperation) (level : Nat) (heap : Heap)
    (hq : WellFormed q) (hgrow : q.nresults = q.nheaders → (Heap.request heap).1 = true) :
    ∀ i, i < q.nresults → (pushResult q level heap).q.results[i]? = q.results[i]? := by
  obtain ⟨g, hg, g1, g2, g3, g4, g5, g6, g7, g8, g9, g10, g11⟩ :=
    grown_spec q heap hq hgrow
  intro i hi
  dsimp only [pushResult]
  rw [hg, if_pos g1]
  by_cases hm : (Heap.request g.heap).1 = true
  · rw [if_pos hm]
    dsimp only
    rw [getElem?_setDepth_setData, if_neg (by omega)]
    exact g10 i hi
  · rw [if_neg hm]
    dsimp only
    rw [getElem?_setData _ _ _ _ (by omega)]
    exact g10 i hi

theorem getResult_header (q : QueryOperation) (id : Nat) (h : QueryResultHeader)
    (hid : id < q.nresults) (hh : q.results[id]? = some h) :
    getResult q id = HeaderPtr.header h := by
  unfold getResult
  rw [if_pos hid, hh]

theorem pushResult_capacity (q : QueryOperation) (level : Nat) (heap : Heap)
    (hgrow : q.nresults = q.nheaders → (Heap.request heap).1 = true) :
    (pushResult q level heap).q.nheaders =
      (if q.nresults = q.nheaders then q.nextHeaderAllocationSize else q.nheaders) ∧
    (pushResult q level heap).q.nextHeaderAllocationSize =
      (if q.nresults = q.nheaders then q.nextHeaderAllocationSize * 2
       else q.nextHeaderAllocationSize) := by
  by_cases hfull : q.nresults = q.nheaders
  · have hg := hgrow hfull
    simp only [pushResult, hfull, if_true, growHeaderArray, hg]
    split <;> exact ⟨rfl, rfl⟩
  · simp only [pushResult, hfull, if_false, if_true]
    split <;> exact ⟨rfl, rfl⟩

/-- The plan `pushes n` is reached, holds `n` headers, and up to 1024 headers its
header array is the first block of 1024. -/
theorem pushes_spec (n : Nat) (hn : n ≤ 1024) :
    ∃ c, ReachedWith 1 (pushes n) c ∧
      (n = 0 → c 0 = none) ∧ (0 < n → c 0 = some [(n - 1) % 2]) ∧
      (pushes n).nresults = n ∧ ((pushes n).buffers 0).size = 1 ∧
      (n = 0 → (pushes n).nheaders = 0 ∧ (pushes n).nextHeaderAllocationSize = 1024) ∧
      (0 < n → (pushes n).nheaders = 1024 ∧ (pushes n).nextHeaderAllocationSize = 2048) := by
  induction n with
  | zero =>
    refine ⟨fun _ => none,
      ReachedWith.createRowBuffer _ _ 0 { getBufferSize := 1 } ReachedWith.new (by decide),
      fun _ => rfl, fun h => absurd h (lt_irrefl _), rfl, ?_, fun _ => ⟨rfl, rfl⟩,
      fun h => absurd h (lt_irrefl _)⟩
    simp [pushes, createRowBuffer]
  | succ n ih =>
    obtain ⟨c, hc, c0, c1, hres, hsize, cap0, cap1⟩ := ih (by omega)
    have hrecv : ReachedWith 1 ((pushes n).receiveRow (fun _ => [n % 2])) c :=
      ReachedWith.receiveRow _ _ _ hc
    have inv := reachInv_of_reachedWith 1 _ c hrecv
    have hd : (pushes n).depth = 1 := (reachInv_of_reachedWith 1 _ c hc).depth_eq
    have hbuf : (((pushes n).receiveRow (fun _ => [n % 2])).buffers 0).buffer = [n % 2] := by
      simp [receiveRow, hd]
    have hsz : (((pushes n).receiveRow (fun _ => [n % 2])).buffers 0).size = 1 := by
      simp [receiveRow, hd, hsize]
    have hnr : ((pushes n).receiveRow (fun _ => [n % 2])).nresults = n := hres
    have heq : pushResultIfChanged ((pushes n).receiveRow (fun _ => [n % 2])) 0 [] =
        pushResult ((pushes n).receiveRow (fun _ => [n % 2])) 0 [] := by
      rcases Nat.eq_zero_or_pos n with h0 | hpos
      · have := inv.none_yet 0 (by decide) (c0 h0)
        simp [pushResultIfChanged, this]
      · obtain ⟨a1, a2, a3⟩ := inv.copied_at 0 _ (by decide) (c1 hpos)
        have hne : ¬ (n - 1) % 2 = n % 2 := by omega
        simp [pushResultIfChanged, a1, List.getD_eq_getElem?_getD, a3,
          QueryResultHeader.copyOf, sameBytes, hbuf, hsz, hne]
    obtain ⟨p1, _, _, _, _, p6, p7, _, _⟩ := pushResult_core _ 0 [] inv.wf
      (fun _ => rfl) (by split <;> rfl)
    obtain ⟨k1, k2⟩ := pushResult_capacity ((pushes n).receiveRow (fun _ => [n % 2])) 0 []
      (fun _ => rfl)
    have hpush := ReachedWith.push _ c 0 [] hrecv (by decide)
      (Or.inl (by rw [heq]; exact p1))
    rw [heq, if_pos ⟨p1, by rw [p6]; omega⟩, hbuf, hsz] at hpush
    have hq : pushes (n + 1) =
        (pushResult ((pushes n).receiveRow (fun _ => [n % 2])) 0 []).q := by
      show (pushResultIfChanged _ 0 []).q = _
      rw [heq]
    rw [hq]
    have hnh : ((pushes n).receiveRow (fun _ => [n % 2])).nheaders = (pushes n).nheaders := rfl
    have hnx : ((pushes n).receiveRow (fun _ => [n % 2])).nextHeaderAllocationSize =
        (pushes n).nextHeaderAllocationSize := rfl
    refine ⟨_, hpush, fun h => absurd h (Nat.succ_ne_zero _), fun _ => by simp, ?_, ?_,
      fun h => absurd h (Nat.succ_ne_zero _), fun _ => ?_⟩
    · rw [p6, hnr]
    · rw [p7]
      simp only [Function.update_same]
      exact hsz
    · rw [k1, k2, hnr, hnh, hnx]
      rcases Nat.eq_zero_or_pos n with h0 | hpos
      · obtain ⟨e1, e2⟩ := cap0 h0
        rw [e1, e2, h0]
        simp
      · obtain ⟨e1, e2⟩ := cap1 hpos
        rw [e1, e2, if_neg (by omega), if_neg (by omega)]
        exact ⟨rfl, rfl⟩

/-- C3: in every reachable state (see `Reachable`), for every push that triggers a
successful `growHeaderArray` (the populated count equals the capacity and `calloc`
answers), the growth succeeds and does not change the populated count, and for every
index below the populated count `getResult` yields a header before the growth and
yields the same header (level, payload and tag) after the growth and after the push
that caused it, whatever the `malloc` of the payload answers. -/
theorem C3_growth_preserves_headers (depth : Nat) (q : QueryOperation)
    (hr : Reachable depth q) (level : Nat) (heap : Heap)
    (hfull : q.nresults = q.nheaders) (hcalloc : (Heap.request heap).1 = true) :
    (growHeaderArray q heap).ok = true ∧
    (growHeaderArray q heap).q.nresults = q.nresults ∧
    ∀ i, i < q.nresults →
      ∃ h, getResult q i = HeaderPtr.header h ∧
        getResult (growHeaderArray q heap).q i = HeaderPtr.header h ∧
        getResult (pushResult q level heap).q i = HeaderPtr.header h := by
  obtain ⟨copied, hc⟩ := hr
  have inv := reachInv_of_reachedWith depth q copied hc
  obtain ⟨g1, _, g3, _, _, _, _, _, _, g10, _⟩ := growHeaderArray_spec q heap inv.wf hcalloc
  refine ⟨g1, g3, ?_⟩
  intro i hi
  have hlt : i < q.results.length := by
    rw [inv.wf.block]
    exact lt_of_lt_of_le hi inv.wf.inside
  have hget : q.results[i]? = some q.results[i] := List.getElem?_eq_getElem hlt
  refine ⟨q.results[i], getResult_header q i _ hi hget, ?_, ?_⟩
  · apply getResult_header
    · rw [g3]; exact hi
    · rw [g10 i (by omega)]; exact hget
  · apply getResult_header
    · have hn : (pushResult q level heap).q.nresults = q.nresults + 1 := by
        simp [pushResult, hfull, growHeaderArray, hcalloc]
        split <;> rfl
      omega
    · rw [pushResult_below q level heap inv.wf (fun _ => hcalloc) i hi]
      exact hget

/-- Witness of C3: the one-level plan holding 1024 headers, a full first block; the
push of the next row triggers the growth to 2048. -/
theorem C3_growth_preserves_headers_witness :
    Reachable 1 (pushes 1024) ∧ (pushes 1024).nresults = 1024 ∧
    (pushes 1024).nheaders = 1024 ∧
    (growHeaderArray (pushes 1024) []).ok = true ∧
    (growHeaderArray (pushes 1024) []).q.nresults = (pushes 1024).nresults ∧
    ∀ i, i < (pushes 1024).nresults →
      ∃ h, getResult (pushes 1024) i = HeaderPtr.header h ∧
        getResult (growHeaderArray (pushes 1024) []).q i = HeaderPtr.header h ∧
        getResult (pushResult (pushes 1024) 0 []).q i = HeaderPtr.header h := by
  obtain ⟨c, hc, _, _, hres, _, _, hcap⟩ := pushes_spec 1024 (le_refl _)
  have hfull : (pushes 1024).nresults = (pushes 1024).nheaders := by
    rw [hres, (hcap (by decide)).1]
  exact ⟨⟨c, hc⟩, hres, (hcap (by decide)).1,
    C3_growth_preserves_headers 1 (pushes 1024) ⟨c, hc⟩ 0 [] hfull rfl⟩

/-- C4: in every state reachable from a new QueryOperation of `depth` levels by
successful pushes at levels below `depth` (and more generally in every state of
`Reachable`), `getResult(id)` is the null pointer for every `id` at or beyond the
populated count, and for every `id` below it is the header stored at flat index `id`,
whose level is below `depth`. -/
theorem C4_getResult_bounds (depth : Nat) (q : QueryOperation)
    (hr : Reachable depth q) (id : Nat) :
    (q.nresults ≤ id → getResult q id = HeaderPtr.null) ∧
    (id < q.nresults →
      ∃ h, q.results[id]? = some h ∧ getResult q id = HeaderPtr.header h ∧
        h.depth < depth) := by
  obtain ⟨copied, hc⟩ := hr
  have inv := reachInv_of_reachedWith depth q copied hc
  constructor
  · intro hid
    unfold getResult
    rw [if_neg (by omega)]
  · intro hid
    have hlt : id < q.results.length := by
      rw [inv.wf.block]
      exact lt_of_lt_of_le hid inv.wf.inside
    have hget : q.results[id]? = some q.results[id] := List.getElem?_eq_getElem hlt
    exact ⟨q.results[id], hget, getResult_header q id _ hid hget, inv.levels id _ hid hget⟩

/-- Witness of C4: a one-level plan after one push, at index 0. -/
theorem C4_getResult_bounds_witness :
    Reachable 1 onePush ∧
    (onePush.nresults ≤ 0 → getResult onePush 0 = HeaderPtr.null) ∧
    (0 < onePush.nresults →
      ∃ h, onePush.results[0]? = some h ∧ getResult onePush 0 = HeaderPtr.header h ∧
        h.depth < 1) :=
  ⟨⟨_, reachedWith_onePush⟩, C4_getResult_bounds 1 onePush ⟨_, reachedWith_onePush⟩ 0⟩

/-- A failed `growHeaderArray` leaves the count as it is and the member `results` null:
the addresses `getResult` then gives for the populated indices are outside any block. -/
theorem growHeaderArray_failed (q : QueryOperation) (heap : Heap)
    (hfail : (Heap.request heap).1 = false) :
    (growHeaderArray q heap).ok = false ∧ (growHeaderArray q heap).q.results = [] ∧
    (growHeaderArray q heap).q.nresults = q.nresults ∧
    ∀ i, i < q.nresults → getResult (growHeaderArray q heap).q i = HeaderPtr.outside := by
  have hq : growHeaderArray q heap =
      { ok := false, q := { q with results := [] }, heap := (Heap.request heap).2 } := by
    simp [growHeaderArray, hfail]
  rw [hq]
  refine ⟨rfl, rfl, rfl, ?_⟩
  intro i hi
  simp [getResult, hi]

set_option maxRecDepth 100000 in
/-- C5 (evaluation at the failing input): a one-level plan, one row `[7]`, `calloc`
answers and the `malloc` of the payload does not. Before the failing push the store
is empty; after it `fetchAllResults` has returned -1, the populated count is 1 and
`getResult(0)` is a header without payload. -/
theorem C5_failed_push_changes_store :
    (preparedPlan 1 (fun _ => 1)).nresults = 0 ∧
    getResult (preparedPlan 1 (fun _ => 1)) 0 = HeaderPtr.null ∧
    (fetchAllResults (preparedPlan 1 (fun _ => 1)) [CursorEvent.gotRow (fun _ => [7])]
        [true, false]).map (fun r => (r.ret, r.q.nresults, getResult r.q 0, r.calls)) =
      some (-1, 1, HeaderPtr.header { data := none, depth := 0, tag := 0 },
        [Call.nextResult NextResultOutcome.NextResult_gotRow,
         Call.pushResultIfChanged 0 false]) := by
  refine ⟨rfl, rfl, ?_⟩
  decide

set_option maxRecDepth 100000 in
/-- C6 (counterexample): a depth-2 scan of three steps with the parent row `[1]` and
three child rows that are byte-identical (`[2]`) materialises one header of level 1,
two headers in all. -/
theorem C6_identical_children_counterexample :
    (fetchAllResults (preparedPlan 2 (fun _ => 1))
        ([joinRow [1] [2], joinRow [1] [2], joinRow [1] [2]].map CursorEvent.gotRow ++
          [CursorEvent.scanComplete]) []).map (fun r => (r.ret, populated r.q)) =
      some (2, [QueryResultHeader.copyOf 0 [1], QueryResultHeader.copyOf 1 [2]]) := by
  decide

/-- C6 (amended): for a depth-2 plan whose cursor delivers three "got a row" steps and
then "scan complete", the level-0 buffer holding the same parent row in all three
steps and the level-1 buffer holding three child rows of which each differs byte-wise
from the one before it, with no allocation failure, `fetchAllResults` returns 4 and
materialises exactly the parent row at level 0 followed by the three child rows at
level 1: one header of level 0 and three of level 1. -/
theorem C6_one_parent_three_children (q : QueryOperation) (heap : Heap)
    (parent c1 c2 c3 : Bytes) (hnew : IsNew q) (hdepth : q.depth = 2)
    (hheap : AllSucceed heap)
    (hparent : parent.length = (q.buffers 0).size)
    (hc1 : c1.length = (q.buffers 1).size) (hc2 : c2.length = (q.buffers 1).size)
    (hc3 : c3.length = (q.buffers 1).size)
    (h12 : c1 ≠ c2) (h23 : c2 ≠ c3) :
    ∃ r : FetchResult,
      fetchAllResults q
        ([joinRow parent c1, joinRow parent c2, joinRow parent c3].map CursorEvent.gotRow ++
          [CursorEvent.scanComplete]) heap = some r ∧
      r.ret = 4 ∧
      populated r.q =
        [QueryResultHeader.copyOf 0 parent, QueryResultHeader.copyOf 1 c1,
         QueryResultHeader.copyOf 1 c2, QueryResultHeader.copyOf 1 c3] ∧
      ((populated r.q).filter (fun h => decide (h.depth = 0))).length = 1 ∧
      ((populated r.q).filter (fun h => decide (h.depth = 1))).length = 3 := by
  have hsizes : ∀ row, row ∈ [joinRow parent c1, joinRow parent c2, joinRow parent c3] →
      ∀ l, l < q.depth → (row l).length = (q.buffers l).size := by
    intro row hrow l hl
    rw [hdepth] at hl
    simp only [List.mem_cons, List.mem_singleton, List.not_mem_nil, or_false] at hrow
    rcases hrow with h | h | h <;> subst h <;> interval_cases l <;>
      simp [joinRow, hparent, hc1, hc2, hc3]
  obtain ⟨r, h1, h2, h3, _, _, h6⟩ := fetchAllResults_rows q _ heap hnew hheap hsizes
  have hpop : populated r.q =
      [QueryResultHeader.copyOf 0 parent, QueryResultHeader.copyOf 1 c1,
       QueryResultHeader.copyOf 1 c2, QueryResultHeader.copyOf 1 c3] := by
    rw [h6, hdepth]
    have h21 : ¬ c2 = c1 := fun h => h12 h.symm
    have h32 : ¬ c3 = c2 := fun h => h23 h.symm
    simp [segments, stepHeaders, seenAfter, joinRow, h12, h23, h21, h32]
  refine ⟨r, h1, ?_, hpop, ?_, ?_⟩
  · rw [h2, ← h3, hpop]
    rfl
  · rw [hpop]
    simp [QueryResultHeader.copyOf]
  · rw [hpop]
    simp [QueryResultHeader.copyOf]

/-- Witness of C6 (amended): parent `[1]`, children `[2]`, `[3]`, `[2]`. -/
theorem C6_one_parent_three_children_witness :
    ∃ r : FetchResult,
      fetchAllResults (preparedPlan 2 (fun _ => 1))
        ([joinRow [1] [2], joinRow [1] [3], joinRow [1] [2]].map CursorEvent.gotRow ++
          [CursorEvent.scanComplete]) [] = some r ∧
      r.ret = 4 ∧
      populated r.q =
        [QueryResultHeader.copyOf 0 [1], QueryResultHeader.copyOf 1 [2],
         QueryResultHeader.copyOf 1 [3], QueryResultHeader.copyOf 1 [2]] ∧
      ((populated r.q).filter (fun h => decide (h.depth = 0))).length = 1 ∧
      ((populated r.q).filter (fun h => decide (h.depth = 1))).length = 3 :=
  C6_one_parent_three_children (preparedPlan 2 (fun _ => 1)) [] [1] [2] [3] [2]
    (isNew_preparedPlan 2 (fun _ => 1)).1 (isNew_preparedPlan 2 (fun _ => 1)).2.1
    (by simp [AllSucceed])
    ((isNew_preparedPlan 2 (fun _ => 1)).2.2 0 (by decide)).symm
    ((isNew_preparedPlan 2 (fun _ => 1)).2.2 1 (by decide)).symm
    ((isNew_preparedPlan 2 (fun _ => 1)).2.2 1 (by decide)).symm
    ((isNew_preparedPlan 2 (fun _ => 1)).2.2 1 (by decide)).symm
    (by decide) (by decide)

theorem quiet_append_one (calls : List Call) (c : Call) (h : Quiet calls)
    (hc : c = Call.nextResult NextResultOutcome.NextResult_gotRow ∨
      ∃ l, c = Call.pushResultIfChanged l true) : Quiet (calls ++ [c]) := by
  intro x hx
  rcases List.mem_append.mp hx with hx | hx
  · exact h x hx
  · rw [List.mem_singleton.mp hx]
    exact hc

/-- The calls of the loop over the levels: pushes that returned `true`, ended by one
that returned `false` when the loop fails. -/
theorem forEachLevel_trace (todo : Nat) :
    ∀ (level : Nat) (q : QueryOperation) (heap : Heap) (calls : List Call),
      Quiet calls →
      ((forEachLevel todo level q heap calls).ok = true →
        Quiet (forEachLevel todo level q heap calls).calls) ∧
      ((forEachLevel todo level q heap calls).ok = false →
        ∃ pre k, (forEachLevel todo level q heap calls).calls =
          pre ++ [Call.pushResultIfChanged k false] ∧ Quiet pre) := by
  induction todo with
  | zero =>
    intro level q heap calls hq
    exact ⟨fun _ => hq, fun h => Bool.noConfusion h⟩
  | succ todo ih =>
    intro level q heap calls hq
    by_cases hok : (pushResultIfChanged q level heap).ok = true
    · simp only [forEachLevel, hok, if_true]
      exact ih _ _ _ _ (quiet_append_one calls _ hq (Or.inr ⟨level, rfl⟩))
    · simp only [forEachLevel, hok]
      refine ⟨fun h => Bool.noConfusion h, fun _ => ⟨calls, level, rfl, hq⟩⟩

/-- Every run of `fetchAllResults` on a cursor that never reports "buffer empty"
returns; after a quiet run of calls, the last call is the advance that reported
"scan complete", the advance that reported "error", or a push that returned `false`. -/
theorem whileMore_ends (cursor : List CursorEvent) :
    ∀ (status : NextResultOutcome) (q : QueryOperation) (heap : Heap) (calls : List Call),
      more status = true → Quiet calls →
      (∀ ev, ev ∈ cursor → ev ≠ CursorEvent.bufferEmpty) →
      ∃ r, whileMore cursor status q heap calls = some r ∧
        ∃ pre final, r.calls = pre ++ [final] ∧ Quiet pre ∧
          ((final = Call.nextResult NextResultOutcome.NextResult_scanComplete ∧
              r.ret = (r.q.nresults : Int)) ∨
           (final = Call.nextResult NextResultOutcome.NextResult_error ∧ r.ret = -1 ∧
              ∃ err consumed, cursor = consumed ++ CursorEvent.error err :: r.cursor ∧
                r.q.latest_error = some err) ∨
           (∃ k, final = Call.pushResultIfChanged k false ∧ r.ret = -1 ∧
              ∃ row consumed, cursor = consumed ++ CursorEvent.gotRow row :: r.cursor)) := by
  induction cursor with
  | nil =>
    intro status q heap calls hm hq _
    refine ⟨{ ret := q.nresults, q := q, heap := heap, cursor := []
              calls := calls ++ [Call.nextResult NextResultOutcome.NextResult_scanComplete] },
      by simp only [whileMore, hm, if_true], calls, _, rfl, hq, Or.inl ⟨rfl, rfl⟩⟩
  | cons ev rest ih =>
    intro status q heap calls hm hq hne
    have hrest : ∀ e, e ∈ rest → e ≠ CursorEvent.bufferEmpty :=
      fun e he => hne e (List.mem_cons_of_mem _ he)
    cases ev with
    | bufferEmpty => exact absurd rfl (hne _ (List.mem_cons_self _ _))
    | scanComplete =>
      refine ⟨{ ret := q.nresults, q := q, heap := heap, cursor := rest
                calls := calls ++ [Call.nextResult NextResultOutcome.NextResult_scanComplete] },
        ?_, calls, _, rfl, hq, Or.inl ⟨rfl, rfl⟩⟩
      have hsc : more NextResultOutcome.NextResult_scanComplete = false := rfl
      cases rest with
      | nil => simp [whileMore, hm, hsc, CursorEvent.status]
      | cons e es => simp [whileMore, hm, hsc, CursorEvent.status]
    | error err =>
      refine ⟨{ ret := -1, q := { q with latest_error := some err }, heap := heap
                cursor := rest
                calls := calls ++ [Call.nextResult NextResultOutcome.NextResult_error] },
        by simp only [whileMore, hm, if_true, CursorEvent.status], calls, _, rfl, hq,
        Or.inr (Or.inl ⟨rfl, rfl, err, [], rfl, rfl⟩)⟩
    | gotRow row =>
      have hq1 : Quiet (calls ++ [Call.nextResult (CursorEvent.gotRow row).status]) :=
        quiet_append_one calls _ hq (Or.inl rfl)
      obtain ⟨t1, t2⟩ := forEachLevel_trace (receiveRow q row).depth 0 (receiveRow q row) heap
        (calls ++ [Call.nextResult (CursorEvent.gotRow row).status]) hq1
      by_cases hok : (forEachLevel (receiveRow q row).depth 0 (receiveRow q row) heap
          (calls ++ [Call.nextResult (CursorEvent.gotRow row).status])).ok = true
      · obtain ⟨r, hr, pre, final, e1, e2, e3⟩ :=
          ih NextResultOutcome.NextResult_gotRow _ _ _ rfl (t1 hok) hrest
        refine ⟨r, ?_, pre, final, e1, e2, ?_⟩
        · simp only [whileMore, hm, if_true, hok]
          exact hr
        · rcases e3 with e3 | ⟨a, b, err, consumed, c, d⟩ | ⟨k, a, b, row', consumed, c⟩
          · exact Or.inl e3
          · exact Or.inr (Or.inl ⟨a, b, err, CursorEvent.gotRow row :: consumed,
              by rw [c]; rfl, d⟩)
          · exact Or.inr (Or.inr ⟨k, a, b, row', CursorEvent.gotRow row :: consumed,
              by rw [c]; rfl⟩)
      · have hfalse : (forEachLevel (receiveRow q row).depth 0 (receiveRow q row) heap
            (calls ++ [Call.nextResult (CursorEvent.gotRow row).status])).ok = false := by
          cases h : (forEachLevel (receiveRow q row).depth 0 (receiveRow q row) heap
            (calls ++ [Call.nextResult (CursorEvent.gotRow row).status])).ok with
          | true => exact absurd h hok
          | false => rfl
        obtain ⟨pre, k, e1, e2⟩ := t2 hfalse
        refine ⟨{ ret := -1
                  q := (forEachLevel (receiveRow q row).depth 0 (receiveRow q row) heap
                    (calls ++ [Call.nextResult (CursorEvent.gotRow row).status])).q
                  heap := (forEachLevel (receiveRow q row).depth 0 (receiveRow q row) heap
                    (calls ++ [Call.nextResult (CursorEvent.gotRow row).status])).heap
                  cursor := rest
                  calls := (forEachLevel (receiveRow q row).depth 0 (receiveRow q row) heap
                    (calls ++ [Call.nextResult (CursorEvent.gotRow row).status])).calls },
          by simp only [whileMore, hm, if_true, hok]; rfl, pre, _, e1, e2,
          Or.inr (Or.inr ⟨k, rfl, rfl, row, [], rfl⟩)⟩

theorem leadingRows_append_afterRows (cursor : List CursorEvent) :
    cursor = (leadingRows cursor).map CursorEvent.gotRow ++ afterRows cursor := by
  induction cursor with
  | nil => rfl
  | cons ev rest ih =>
    cases ev with
    | gotRow row =>
      simp only [leadingRows, afterRows, List.map_cons, List.cons_append]
      rw [← ih]
    | scanComplete => rfl
    | bufferEmpty => rfl
    | error err => rfl

theorem afterRows_not_gotRow (cursor : List CursorEvent) (row : Nat → Bytes)
    (rest : List CursorEvent) : afterRows cursor ≠ CursorEvent.gotRow row :: rest := by
  induction cursor with
  | nil => exact fun h => List.noConfusion h
  | cons ev tl ih =>
    cases ev with
    | gotRow row' => exact ih
    | scanComplete => exact fun h => CursorEvent.noConfusion (List.cons.inj h).1
    | bufferEmpty => exact fun h => CursorEvent.noConfusion (List.cons.inj h).1
    | error err => exact fun h => CursorEvent.noConfusion (List.cons.inj h).1

theorem mem_of_mem_afterRows (cursor : List CursorEvent) (ev : CursorEvent)
    (h : ev ∈ afterRows cursor) : ev ∈ cursor := by
  rw [leadingRows_append_afterRows cursor]
  exact List.mem_append_right _ h

/-- The calls made before the loop over the levels do not bear on what it does; they
come first in its list of calls. -/
theorem forEachLevel_calls (todo : Nat) :
    ∀ (level : Nat) (q : QueryOperation) (heap : Heap) (calls : List Call),
      (forEachLevel todo level q heap calls).ok = (forEachLevel todo level q heap []).ok ∧
      (forEachLevel todo level q heap calls).q = (forEachLevel todo level q heap []).q ∧
      (forEachLevel todo level q heap calls).heap = (forEachLevel todo level q heap []).heap ∧
      (forEachLevel todo level q heap calls).calls =
        calls ++ (forEachLevel todo level q heap []).calls := by
  induction todo with
  | zero =>
    intro level q heap calls
    exact ⟨rfl, rfl, rfl, by simp [forEachLevel]⟩
  | succ todo ih =>
    intro level q heap calls
    by_cases hok : (pushResultIfChanged q level heap).ok = true
    · simp only [forEachLevel, hok, if_true]
      obtain ⟨a1, a2, a3, a4⟩ := ih (level + 1) (pushResultIfChanged q level heap).q
        (pushResultIfChanged q level heap).heap (calls ++ [Call.pushResultIfChanged level true])
      obtain ⟨b1, b2, b3, b4⟩ := ih (level + 1) (pushResultIfChanged q level heap).q
        (pushResultIfChanged q level heap).heap ([] ++ [Call.pushResultIfChanged level true])
      refine ⟨by rw [a1, b1], by rw [a2, b2], by rw [a3, b3], ?_⟩
      rw [a4, b4]
      simp
    · simp only [forEachLevel, hok]
      exact ⟨rfl, rfl, rfl, by simp⟩

theorem pushResultIfChanged_depth (q : QueryOperation) (level : Nat) (heap : Heap) :
    (pushResultIfChanged q level heap).q.depth = q.depth := by
  rcases pushResultIfChanged_cases q level heap with heq | heq
  · rw [heq]
  · rw [heq]
    simp only [pushResult, growHeaderArray]
    split_ifs <;> rfl

theorem forEachLevel_depth (todo : Nat) :
    ∀ (level : Nat) (q : QueryOperation) (heap : Heap) (calls : List Call),
      (forEachLevel todo level q heap calls).q.depth = q.depth := by
  induction todo with
  | zero => intro level q heap calls; rfl
  | succ todo ih =>
    intro level q heap calls
    by_cases hok : (pushResultIfChanged q level heap).ok = true
    · simp only [forEachLevel, hok, if_true]
      rw [ih, pushResultIfChanged_depth]
    · simp only [forEachLevel, hok]
      exact pushResultIfChanged_depth q level heap

/-- The loop over the levels does what `pushLevels` does on the levels `level`, ...,
`level + todo - 1`. -/
theorem forEachLevel_pushLevels (todo : Nat) :
    ∀ (level : Nat) (q : QueryOperation) (heap : Heap),
      (forEachLevel todo level q heap []).ok =
        (pushLevels (List.range' level todo) q heap).ok ∧
      (forEachLevel todo level q heap []).q =
        (pushLevels (List.range' level todo) q heap).q ∧
      (forEachLevel todo level q heap []).heap =
        (pushLevels (List.range' level todo) q heap).heap := by
  induction todo with
  | zero => intro level q heap; exact ⟨rfl, rfl, rfl⟩
  | succ todo ih =>
    intro level q heap
    rw [List.range'_succ]
    by_cases hok : (pushResultIfChanged q level heap).ok = true
    · obtain ⟨a1, a2, a3, _⟩ := forEachLevel_calls todo (level + 1)
        (pushResultIfChanged q level heap).q (pushResultIfChanged q level heap).heap
        ([] ++ [Call.pushResultIfChanged level true])
      obtain ⟨i1, i2, i3⟩ := ih (level + 1) (pushResultIfChanged q level heap).q
        (pushResultIfChanged q level heap).heap
      simp only [forEachLevel, pushLevels, hok, if_true]
      exact ⟨by rw [a1, i1], by rw [a2, i2], by rw [a3, i3]⟩
    · have hfalse : (pushResultIfChanged q level heap).ok = false := by
        cases hb : (pushResultIfChanged q level heap).ok with
        | true => exact absurd hb hok
        | false => rfl
      simp only [forEachLevel, pushLevels, hfalse]
      exact ⟨hfalse.symm, rfl, rfl⟩

/-- A loop over the levels that fails has pushed the levels below some level `k` with
success, has failed in the push at `k`, and has done nothing after it. -/
theorem forEachLevel_failed (todo : Nat) :
    ∀ (level : Nat) (q : QueryOperation) (heap : Heap),
      (forEachLevel todo level q heap []).ok = false →
      ∃ (k : Nat) (qk : QueryOperation) (hk : Heap),
        level ≤ k ∧ k < level + todo ∧
        pushLevels (List.range' level (k - level)) q heap =
          { ok := true, q := qk, heap := hk } ∧
        (pushResultIfChanged qk k hk).ok = false ∧
        (forEachLevel todo level q heap []).q = (pushResultIfChanged qk k hk).q ∧
        (forEachLevel todo level q heap []).heap = (pushResultIfChanged qk k hk).heap ∧
        (forEachLevel todo level q heap []).calls =
          (List.range' level (k - level)).map (fun l => Call.pushResultIfChanged l true) ++
            [Call.pushResultIfChanged k false] := by
  induction todo with
  | zero =>
    intro level q heap h
    exact Bool.noConfusion h
  | succ todo ih =>
    intro level q heap h
    by_cases hok : (pushResultIfChanged q level heap).ok = true
    · have hstep : forEachLevel (todo + 1) level q heap [] =
          forEachLevel todo (level + 1) (pushResultIfChanged q level heap).q
            (pushResultIfChanged q level heap).heap
            ([] ++ [Call.pushResultIfChanged level true]) := by
        simp only [forEachLevel, hok, if_true]
      obtain ⟨a1, a2, a3, a4⟩ := forEachLevel_calls todo (level + 1)
        (pushResultIfChanged q level heap).q (pushResultIfChanged q level heap).heap
        ([] ++ [Call.pushResultIfChanged level true])
      rw [hstep, a1] at h
      obtain ⟨k, qk, hk, k1, k2, kp, k3, k4, k5, k6⟩ := ih (level + 1) _ _ h
      have hk' : k - level = (k - (level + 1)) + 1 := by omega
      refine ⟨k, qk, hk, by omega, by omega, ?_, k3, ?_, ?_, ?_⟩
      · rw [hk', List.range'_succ]
        simp only [pushLevels, hok, if_true]
        exact kp
      · rw [hstep, a2, k4]
      · rw [hstep, a3, k5]
      · rw [hstep, a4, k6, hk', List.range'_succ]
        simp
    · have hfalse : (pushResultIfChanged q level heap).ok = false := by
        cases hb : (pushResultIfChanged q level heap).ok with
        | true => exact absurd hb hok
        | false => rfl
      refine ⟨level, q, heap, le_refl _, by omega, ?_, hfalse, ?_, ?_, ?_⟩
      · simp [pushLevels]
      · simp only [forEachLevel, hok]
        rfl
      · simp only [forEachLevel, hok]
        rfl
      · simp only [forEachLevel, hok]
        simp

theorem pushLevels_range_eq (q : QueryOperation) (row : Nat → Bytes) (heap : Heap) :
    (forEachLevel q.depth 0 (receiveRow q row) heap []).ok =
      (pushLevels (List.range q.depth) (receiveRow q row) heap).ok ∧
    (forEachLevel q.depth 0 (receiveRow q row) heap []).q =
      (pushLevels (List.range q.depth) (receiveRow q row) heap).q ∧
    (forEachLevel q.depth 0 (receiveRow q row) heap []).heap =
      (pushLevels (List.range q.depth) (receiveRow q row) heap).heap := by
  rw [List.range_eq_range']
  exact forEachLevel_pushLevels q.depth 0 (receiveRow q row) heap

/-- What `fetchAllResults` returns and leaves behind, read off the cursor script: the
leading rows are pushed one after the other; if a push fails, -1 is returned at once;
otherwise the outcome after the rows decides ("scan complete" or the end of the script:
the count; "error": -1 and the diagnostic kept). -/
theorem whileMore_pushRows (cursor : List CursorEvent) :
    ∀ (status : NextResultOutcome) (q : QueryOperation) (heap : Heap) (calls : List Call),
      more status = true →
      (∀ ev, ev ∈ cursor → ev ≠ CursorEvent.bufferEmpty) →
      ∃ r, whileMore cursor status q heap calls = some r ∧
        (∀ q' heap', pushRows q heap (leadingRows cursor) = RowsOutcome.pushed q' heap' →
          r.heap = heap' ∧
          (afterRows cursor = [] →
            r.ret = (q'.nresults : Int) ∧ r.q = q' ∧ r.cursor = []) ∧
          (∀ rest, afterRows cursor = CursorEvent.scanComplete :: rest →
            r.ret = (q'.nresults : Int) ∧ r.q = q' ∧ r.cursor = rest) ∧
          (∀ err rest, afterRows cursor = CursorEvent.error err :: rest →
            r.ret = -1 ∧ r.q = { q' with latest_error := some err } ∧ r.cursor = rest)) ∧
        (∀ before f, pushRows q heap (leadingRows cursor) = RowsOutcome.failed before f →
          r.ret = -1 ∧ r.q = f.q ∧ r.heap = f.heap ∧ r.cursor = cursor.drop (before + 1) ∧
          ∃ (qn : QueryOperation) (hn : Heap) (row : Nat → Bytes) (k : Nat)
              (qk : QueryOperation) (hk : Heap) (pre : List Call),
            pushRows q heap ((leadingRows cursor).take before) = RowsOutcome.pushed qn hn ∧
            (leadingRows cursor)[before]? = some row ∧ k < q.depth ∧
            pushLevels (List.range k) (receiveRow qn row) hn =
              { ok := true, q := qk, heap := hk } ∧
            (pushResultIfChanged qk k hk).ok = false ∧
            r.q = (pushResultIfChanged qk k hk).q ∧
            r.heap = (pushResultIfChanged qk k hk).heap ∧
            r.calls = pre ++ Call.nextResult NextResultOutcome.NextResult_gotRow ::
              ((List.range k).map (fun l => Call.pushResultIfChanged l true) ++
                [Call.pushResultIfChanged k false])) := by
  induction cursor with
  | nil =>
    intro status q heap calls hm _
    refine ⟨{ ret := q.nresults, q := q, heap := heap, cursor := []
              calls := calls ++ [Call.nextResult NextResultOutcome.NextResult_scanComplete] },
      by simp only [whileMore, hm, if_true], ?_, ?_⟩
    · intro q' heap' h
      injection h with h1 h2
      subst h1
      subst h2
      exact ⟨rfl, fun _ => ⟨rfl, rfl, rfl⟩, fun rest h => List.noConfusion h,
        fun err rest h => List.noConfusion h⟩
    · intro before f h
      exact RowsOutcome.noConfusion h
  | cons ev rest ih =>
    intro status q heap calls hm hne
    have hrest : ∀ e, e ∈ rest → e ≠ CursorEvent.bufferEmpty :=
      fun e he => hne e (List.mem_cons_of_mem _ he)
    cases ev with
    | bufferEmpty => exact absurd rfl (hne _ (List.mem_cons_self _ _))
    | scanComplete =>
      refine ⟨{ ret := q.nresults, q := q, heap := heap, cursor := rest
                calls := calls ++ [Call.nextResult NextResultOutcome.NextResult_scanComplete] },
        ?_, ?_, ?_⟩
      · have hsc : more NextResultOutcome.NextResult_scanComplete = false := rfl
        cases rest with
        | nil => simp [whileMore, hm, hsc, CursorEvent.status]
        | cons e es => simp [whileMore, hm, hsc, CursorEvent.status]
      · intro q' heap' h
        injection h with h1 h2
        subst h1
        subst h2
        refine ⟨rfl, fun h => List.noConfusion h, ?_, ?_⟩
        · intro rest' h
          have := (List.cons.inj h).2
          subst this
          exact ⟨rfl, rfl, rfl⟩
        · intro err rest' h
          exact CursorEvent.noConfusion (List.cons.inj h).1
      · intro before f h
        exact RowsOutcome.noConfusion h
    | error err =>
      refine ⟨{ ret := -1, q := { q with latest_error := some err }, heap := heap
                cursor := rest
                calls := calls ++ [Call.nextResult NextResultOutcome.NextResult_error] },
        by simp only [whileMore, hm, if_true, CursorEvent.status], ?_, ?_⟩
      · intro q' heap' h
        injection h with h1 h2
        subst h1
        subst h2
        refine ⟨rfl, fun h => List.noConfusion h, ?_, ?_⟩
        · intro rest' h
          exact CursorEvent.noConfusion (List.cons.inj h).1
        · intro err' rest' h
          obtain ⟨h1, h2⟩ := List.cons.inj h
          injection h1 with h1
          subst h1
          subst h2
          exact ⟨rfl, rfl, rfl⟩
      · intro before f h
        exact RowsOutcome.noConfusion h
    | gotRow row =>
      obtain ⟨a1, a2, a3, a4⟩ := forEachLevel_calls q.depth 0 (receiveRow q row) heap
        (calls ++ [Call.nextResult (CursorEvent.gotRow row).status])
      obtain ⟨l1, l2, l3⟩ := pushLevels_range_eq q row heap
      rw [l1] at a1
      rw [l2] at a2
      rw [l3] at a3
      by_cases hok : (pushLevels (List.range q.depth) (receiveRow q row) heap).ok = true
      · have hok' : (forEachLevel (receiveRow q row).depth 0 (receiveRow q row) heap
            (calls ++ [Call.nextResult (CursorEvent.gotRow row).status])).ok = true := by
          show (forEachLevel q.depth 0 (receiveRow q row) heap _).ok = true
          rw [a1]; exact hok
        obtain ⟨r, hr, i1, i2⟩ := ih NextResultOutcome.NextResult_gotRow
          (forEachLevel q.depth 0 (receiveRow q row) heap
            (calls ++ [Call.nextResult (CursorEvent.gotRow row).status])).q
          (forEachLevel q.depth 0 (receiveRow q row) heap
            (calls ++ [Call.nextResult (CursorEvent.gotRow row).status])).heap
          (forEachLevel q.depth 0 (receiveRow q row) heap
            (calls ++ [Call.nextResult (CursorEvent.gotRow row).status])).calls rfl hrest
        have hdepth : (forEachLevel q.depth 0 (receiveRow q row) heap
            (calls ++ [Call.nextResult (CursorEvent.gotRow row).status])).q.depth = q.depth := by
          rw [forEachLevel_depth]
          rfl
        rw [hdepth] at i2
        rw [a2, a3] at i1 i2
        refine ⟨r, ?_, ?_, ?_⟩
        · simp only [whileMore, hm, if_true, hok']
          exact hr
        · intro q' heap' h
          simp only [leadingRows, pushRows, hok, if_true] at h
          cases hrec : pushRows (pushLevels (List.range q.depth) (receiveRow q row) heap).q
              (pushLevels (List.range q.depth) (receiveRow q row) heap).heap
              (leadingRows rest) with
          | pushed q'' heap'' =>
            rw [hrec] at h
            injection h with h1 h2
            subst h1
            subst h2
            exact i1 _ _ hrec
          | failed n g =>
            rw [hrec] at h
            exact RowsOutcome.noConfusion h
        · intro before f h
          simp only [leadingRows, pushRows, hok, if_true] at h
          cases hrec : pushRows (pushLevels (List.range q.depth) (receiveRow q row) heap).q
              (pushLevels (List.range q.depth) (receiveRow q row) heap).heap
              (leadingRows rest) with
          | pushed q'' heap'' =>
            rw [hrec] at h
            exact RowsOutcome.noConfusion h
          | failed n g =>
            rw [hrec] at h
            injection h with h1 h2
            subst h1
            subst h2
            obtain ⟨j1, j2, j3, j4, qn, hn, row', k, qk, hk, pre, m1, m2, m3, m4, m5, m6, m7,
              m8⟩ := i2 _ _ hrec
            refine ⟨j1, j2, j3, by rw [j4]; rfl, qn, hn, row', k, qk, hk, pre, ?_, ?_, m3, m4,
              m5, m6, m7, m8⟩
            · simp only [leadingRows, List.take_succ_cons, pushRows, hok, if_true, m1]
            · simpa [leadingRows] using m2
      · have hok' : ¬ (forEachLevel (receiveRow q row).depth 0 (receiveRow q row) heap
            (calls ++ [Call.nextResult (CursorEvent.gotRow row).status])).ok = true := by
          show ¬ (forEachLevel q.depth 0 (receiveRow q row) heap _).ok = true
          rw [a1]; exact hok
        have hfalse : (forEachLevel q.depth 0 (receiveRow q row) heap []).ok = false := by
          rw [l1]
          cases hb : (pushLevels (List.range q.depth) (receiveRow q row) heap).ok with
          | true => exact absurd hb hok
          | false => rfl
        obtain ⟨k, qk, hk, _, k2, kp, k3, k4, k5, k6⟩ :=
          forEachLevel_failed q.depth 0 (receiveRow q row) heap hfalse
        rw [l2] at k4
        rw [l3] at k5
        refine ⟨{ ret := -1
                  q := (forEachLevel (receiveRow q row).depth 0 (receiveRow q row) heap
                    (calls ++ [Call.nextResult (CursorEvent.gotRow row).status])).q
                  heap := (forEachLevel (receiveRow q row).depth 0 (receiveRow q row) heap
                    (calls ++ [Call.nextResult (CursorEvent.gotRow row).status])).heap
                  cursor := rest
                  calls := (forEachLevel (receiveRow q row).depth 0 (receiveRow q row) heap
                    (calls ++ [Call.nextResult (CursorEvent.gotRow row).status])).calls },
          by simp only [whileMore, hm, if_true, hok']; rfl, ?_, ?_⟩
        · intro q' heap' h
          simp only [leadingRows, pushRows, hok] at h
          exact RowsOutcome.noConfusion h
        · intro before f h
          simp only [leadingRows, pushRows, hok] at h
          injection h with h1 h2
          subst h1
          subst h2
          refine ⟨rfl, a2, a3, rfl, q, heap, row, k, qk, hk, calls, rfl, by simp [leadingRows],
            by omega, ?_, k3, ?_, ?_, ?_⟩
          · rw [List.range_eq_range']
            simpa using kp
          · show (forEachLevel q.depth 0 (receiveRow q row) heap _).q = _
            rw [a2, k4]
          · show (forEachLevel q.depth 0 (receiveRow q row) heap _).heap = _
            rw [a3, k5]
          · show (forEachLevel q.depth 0 (receiveRow q row) heap _).calls = _
            rw [a4, k6, List.range_eq_range']
            simp [CursorEvent.status]

/-- The log part of C7: what `fetchAllResults` returns against the calls it made. -/
theorem fetch_outcome_calls (q : QueryOperation) (cursor : List CursorEvent) (heap : Heap)
    (hcursor : ∀ ev, ev ∈ cursor → ev ≠ CursorEvent.bufferEmpty) :
    ∃ r, fetchAllResults q cursor heap = some r ∧
      (0 ≤ r.ret ↔
        (r.calls.getLast? = some (Call.nextResult NextResultOutcome.NextResult_scanComplete) ∧
          ∀ k, Call.pushResultIfChanged k false ∉ r.calls)) ∧
      (0 ≤ r.ret → r.ret = (r.q.nresults : Int)) ∧
      (r.ret < 0 ↔
        (Call.nextResult NextResultOutcome.NextResult_error ∈ r.calls ∨
          ∃ k, Call.pushResultIfChanged k false ∈ r.calls)) ∧
      (Call.nextResult NextResultOutcome.NextResult_error ∈ r.calls →
        r.calls.getLast? = some (Call.nextResult NextResultOutcome.NextResult_error) ∧
        ∃ err consumed, cursor = consumed ++ CursorEvent.error err :: r.cursor ∧
          r.q.latest_error = some err) ∧
      (∀ k, Call.pushResultIfChanged k false ∈ r.calls →
        r.calls.getLast? = some (Call.pushResultIfChanged k false) ∧
        ∃ row consumed, cursor = consumed ++ CursorEvent.gotRow row :: r.cursor) := by
  obtain ⟨r, hr, pre, final, hcalls, hpre, hend⟩ :=
    whileMore_ends cursor NextResultOutcome.NextResult_bufferEmpty q heap [] rfl
      (fun c hc => absurd hc (List.not_mem_nil _)) hcursor
  have hlast : r.calls.getLast? = some final := by
    rw [hcalls]
    simp
  have hnoerr : Call.nextResult NextResultOutcome.NextResult_error ∉ pre := by
    intro h
    rcases hpre _ h with h | ⟨l, h⟩
    · exact absurd h (by decide)
    · exact Call.noConfusion h
  have hnofail : ∀ k, Call.pushResultIfChanged k false ∉ pre := by
    intro k h
    rcases hpre _ h with h | ⟨l, h⟩
    · exact Call.noConfusion h
    · injection h with _ h2
      exact Bool.noConfusion h2
  have hmem : ∀ c, c ∈ r.calls ↔ c ∈ pre ∨ c = final := by
    intro c
    rw [hcalls]
    simp
  refine ⟨r, hr, ?_⟩
  rcases hend with ⟨hf, hret⟩ | ⟨hf, hret, err, consumed, hc, he⟩ | ⟨k, hf, hret, row, consumed, hc⟩
  · -- scan complete
    have hnn : 0 ≤ r.ret := by rw [hret]; exact Int.ofNat_nonneg _
    have hnofail' : ∀ k, Call.pushResultIfChanged k false ∉ r.calls := by
      intro k h
      rcases (hmem _).mp h with h | h
      · exact hnofail k h
      · rw [hf] at h; exact Call.noConfusion h
    have hnoerr' : Call.nextResult NextResultOutcome.NextResult_error ∉ r.calls := by
      intro h
      rcases (hmem _).mp h with h | h
      · exact hnoerr h
      · rw [hf] at h; exact absurd h (by decide)
    refine ⟨⟨fun _ => ⟨by rw [hlast, hf], hnofail'⟩, fun _ => hnn⟩, fun _ => hret, ?_, ?_, ?_⟩
    · constructor
      · intro h; omega
      · rintro (h | ⟨k, h⟩)
        · exact absurd h hnoerr'
        · exact absurd h (hnofail' k)
    · intro h; exact absurd h hnoerr'
    · intro k h; exact absurd h (hnofail' k)
  · -- error
    have hneg : r.ret < 0 := by rw [hret]; decide
    have hnofail' : ∀ k, Call.pushResultIfChanged k false ∉ r.calls := by
      intro k h
      rcases (hmem _).mp h with h | h
      · exact hnofail k h
      · rw [hf] at h; exact Call.noConfusion h
    refine ⟨⟨fun h => by omega, fun h => ?_⟩, fun h => by omega, ?_, ?_, ?_⟩
    · rw [hlast, hf] at h
      exact absurd (Option.some.inj h.1) (by decide)
    · exact ⟨fun _ => Or.inl ((hmem _).mpr (Or.inr hf.symm)), fun _ => hneg⟩
    · intro _
      exact ⟨by rw [hlast, hf], err, consumed, hc, he⟩
    · intro k h; exact absurd h (hnofail' k)
  · -- a push failed
    have hneg : r.ret < 0 := by rw [hret]; decide
    have hnoerr' : Call.nextResult NextResultOutcome.NextResult_error ∉ r.calls := by
      intro h
      rcases (hmem _).mp h with h | h
      · exact hnoerr h
      · rw [hf] at h; exact Call.noConfusion h
    refine ⟨⟨fun h => by omega, fun h => ?_⟩, fun h => by omega, ?_, ?_, ?_⟩
    · exact absurd ((hmem _).mpr (Or.inr hf.symm)) (h.2 k)
    · exact ⟨fun _ => Or.inr ⟨k, (hmem _).mpr (Or.inr hf.symm)⟩, fun _ => hneg⟩
    · intro h; exact absurd h hnoerr'
    · intro k' h
      rcases (hmem _).mp h with h | h
      · exact absurd h (hnofail k')
      · refine ⟨by rw [hlast, h], row, consumed, hc⟩

/-- C7: for every sequence of cursor outcomes (got a row, scan complete, error) and
every behaviour of the allocator, `fetchAllResults` returns. The script is its leading
rows followed by the rest (`leadingRows`, `afterRows`); the rows are pushed one after
the other, each at the levels `0, ..., depth - 1` in this order down to the first push
that returns `false` (`pushRows`, `pushLevels`). The function returns a non-negative
value exactly when every push of the leading rows succeeds and the outcome after them
is "scan complete" (or the script ends there); that value is the populated count of
the object the pushes left, and the rest of the cursor is what follows the "scan
complete". It returns a negative value, -1, exactly when a push of a leading row fails
or the outcome after the rows is "error". On "error" the diagnostic of that outcome is
the latest error and the rest of the cursor is what follows it. After a failing push
at level `k` the object is the one that push left, the levels below `k` having been
pushed with success: no level above `k` is pushed for that step, the failing push is
the last call, and the cursor is not advanced again (the rest of the cursor is what
follows the row of that step). The first conjuncts state the same on the log of the
calls made. -/
theorem C7_fetch_outcome (q : QueryOperation) (cursor : List CursorEvent) (heap : Heap)
    (hcursor : ∀ ev, ev ∈ cursor → ev ≠ CursorEvent.bufferEmpty) :
    ∃ r, fetchAllResults q cursor heap = some r ∧
      (0 ≤ r.ret ↔
        (r.calls.getLast? = some (Call.nextResult NextResultOutcome.NextResult_scanComplete) ∧
          ∀ k, Call.pushResultIfChanged k false ∉ r.calls)) ∧
      (0 ≤ r.ret → r.ret = (r.q.nresults : Int)) ∧
      (r.ret < 0 ↔
        (Call.nextResult NextResultOutcome.NextResult_error ∈ r.calls ∨
          ∃ k, Call.pushResultIfChanged k false ∈ r.calls)) ∧
      (Call.nextResult NextResultOutcome.NextResult_error ∈ r.calls →
        r.calls.getLast? = some (Call.nextResult NextResultOutcome.NextResult_error) ∧
        ∃ err consumed, cursor = consumed ++ CursorEvent.error err :: r.cursor ∧
          r.q.latest_error = some err) ∧
      (∀ k, Call.pushResultIfChanged k false ∈ r.calls →
        r.calls.getLast? = some (Call.pushResultIfChanged k false) ∧
        ∃ row consumed, cursor = consumed ++ CursorEvent.gotRow row :: r.cursor) ∧
      cursor = (leadingRows cursor).map CursorEvent.gotRow ++ afterRows cursor ∧
      (0 ≤ r.ret ↔
        ∃ q' heap', pushRows q heap (leadingRows cursor) = RowsOutcome.pushed q' heap' ∧
          (afterRows cursor = [] ∨
            ∃ rest, afterRows cursor = CursorEvent.scanComplete :: rest)) ∧
      (r.ret < 0 ↔
        ((∃ before f, pushRows q heap (leadingRows cursor) = RowsOutcome.failed before f) ∨
          ∃ q' heap' err rest,
            pushRows q heap (leadingRows cursor) = RowsOutcome.pushed q' heap' ∧
            afterRows cursor = CursorEvent.error err :: rest)) ∧
      (∀ q' heap', pushRows q heap (leadingRows cursor) = RowsOutcome.pushed q' heap' →
        r.heap = heap' ∧
        (afterRows cursor = [] →
          r.ret = (q'.nresults : Int) ∧ r.q = q' ∧ r.cursor = []) ∧
        (∀ rest, afterRows cursor = CursorEvent.scanComplete :: rest →
          r.ret = (q'.nresults : Int) ∧ r.q = q' ∧ r.cursor = rest) ∧
        (∀ err rest, afterRows cursor = CursorEvent.error err :: rest →
          r.ret = -1 ∧ r.q = { q' with latest_error := some err } ∧ r.cursor = rest)) ∧
      (∀ before f, pushRows q heap (leadingRows cursor) = RowsOutcome.failed before f →
        r.ret = -1 ∧ r.q = f.q ∧ r.heap = f.heap ∧ r.cursor = cursor.drop (before + 1) ∧
        ∃ (qn : QueryOperation) (hn : Heap) (row : Nat → Bytes) (k : Nat)
            (qk : QueryOperation) (hk : Heap) (pre : List Call),
          pushRows q heap ((leadingRows cursor).take before) = RowsOutcome.pushed qn hn ∧
          (leadingRows cursor)[before]? = some row ∧ k < q.depth ∧
          pushLevels (List.range k) (receiveRow qn row) hn =
            { ok := true, q := qk, heap := hk } ∧
          (pushResultIfChanged qk k hk).ok = false ∧
          r.q = (pushResultIfChanged qk k hk).q ∧
          r.heap = (pushResultIfChanged qk k hk).heap ∧
          r.calls = pre ++ Call.nextResult NextResultOutcome.NextResult_gotRow ::
            ((List.range k).map (fun l => Call.pushResultIfChanged l true) ++
              [Call.pushResultIfChanged k false])) := by
  obtain ⟨r, hr, c1, c2, c3, c4, c5⟩ := fetch_outcome_calls q cursor heap hcursor
  obtain ⟨r', hr', p1, p2⟩ :=
    whileMore_pushRows cursor NextResultOutcome.NextResult_bufferEmpty q heap [] rfl hcursor
  have hrr : r' = r := by
    unfold fetchAllResults at hr
    rw [hr] at hr'
    exact (Option.some.inj hr').symm
  subst hrr
  -- what the run comes to, and what is returned in each case
  have hclass :
      ((∃ q' heap', pushRows q heap (leadingRows cursor) = RowsOutcome.pushed q' heap' ∧
          (afterRows cursor = [] ∨
            ∃ rest, afterRows cursor = CursorEvent.scanComplete :: rest)) ∧ 0 ≤ r'.ret) ∨
      (((∃ before f, pushRows q heap (leadingRows cursor) = RowsOutcome.failed before f) ∨
          ∃ q' heap' err rest,
            pushRows q heap (leadingRows cursor) = RowsOutcome.pushed q' heap' ∧
            afterRows cursor = CursorEvent.error err :: rest) ∧ r'.ret < 0) := by
    cases hp : pushRows q heap (leadingRows cursor) with
    | pushed q' heap' =>
      obtain ⟨_, a1, a2, a3⟩ := p1 q' heap' hp
      cases ha : afterRows cursor with
      | nil =>
        refine Or.inl ⟨⟨q', heap', rfl, Or.inl rfl⟩, ?_⟩
        rw [(a1 ha).1]
        exact Int.ofNat_nonneg _
      | cons ev rest =>
        cases ev with
        | gotRow row => exact absurd ha (afterRows_not_gotRow cursor row rest)
        | bufferEmpty =>
          exact absurd rfl (hcursor _ (mem_of_mem_afterRows cursor _
            (by rw [ha]; exact List.mem_cons_self _ _)))
        | scanComplete =>
          refine Or.inl ⟨⟨q', heap', rfl, Or.inr ⟨rest, rfl⟩⟩, ?_⟩
          rw [(a2 rest ha).1]
          exact Int.ofNat_nonneg _
        | error err =>
          refine Or.inr ⟨Or.inr ⟨q', heap', err, rest, rfl, rfl⟩, ?_⟩
          rw [(a3 err rest ha).1]
          decide
    | failed before f =>
      refine Or.inr ⟨Or.inl ⟨before, f, rfl⟩, ?_⟩
      rw [(p2 before f hp).1]
      decide
  have hexcl :
      (∃ q' heap', pushRows q heap (leadingRows cursor) = RowsOutcome.pushed q' heap' ∧
          (afterRows cursor = [] ∨
            ∃ rest, afterRows cursor = CursorEvent.scanComplete :: rest)) →
      ((∃ before f, pushRows q heap (leadingRows cursor) = RowsOutcome.failed before f) ∨
          ∃ q' heap' err rest,
            pushRows q heap (leadingRows cursor) = RowsOutcome.pushed q' heap' ∧
            afterRows cursor = CursorEvent.error err :: rest) → False := by
    rintro ⟨q', heap', hp, ha⟩ (⟨before, f, hf⟩ | ⟨q'', heap'', err, rest, _, he⟩)
    · rw [hp] at hf
      exact RowsOutcome.noConfusion hf
    · rcases ha with ha | ⟨rest', ha⟩
      · rw [ha] at he
        exact List.noConfusion he
      · rw [ha] at he
        exact CursorEvent.noConfusion (List.cons.inj he).1
  refine ⟨r', hr, c1, c2, c3, c4, c5, leadingRows_append_afterRows cursor, ?_, ?_, ?_, ?_⟩
  · constructor
    · intro h
      rcases hclass with ⟨hs, _⟩ | ⟨_, hneg⟩
      · exact hs
      · omega
    · intro hs
      rcases hclass with ⟨_, hnn⟩ | ⟨hf, _⟩
      · exact hnn
      · exact absurd hf (hexcl hs)
  · constructor
    · intro h
      rcases hclass with ⟨_, hnn⟩ | ⟨hf, _⟩
      · omega
      · exact hf
    · intro hf
      rcases hclass with ⟨hs, _⟩ | ⟨_, hneg⟩
      · exact absurd hf (hexcl hs)
      · exact hneg
  · intro q' heap' hp
    obtain ⟨a0, a1, a2, a3⟩ := p1 q' heap' hp
    exact ⟨a0, a1, a2, a3⟩
  · intro before f hp
    exact p2 before f hp

set_option maxRecDepth 100000 in
/-- Witness of C7: a one-level scan that delivers one row and completes, the script
going on with an "error" that is never read: the count 1 is returned after two
advances and one push, and one outcome is left in the cursor. -/
theorem C7_fetch_outcome_witness :
    (fetchAllResults (preparedPlan 1 (fun _ => 1))
        [CursorEvent.gotRow (fun _ => [7]), CursorEvent.scanComplete,
         CursorEvent.error { code := 4008, message := "" }] []).map
        (fun r => (r.ret, r.calls, r.cursor.length)) =
      some (1, [Call.nextResult NextResultOutcome.NextResult_gotRow,
                Call.pushResultIfChanged 0 true,
                Call.nextResult NextResultOutcome.NextResult_scanComplete], 1) ∧
    ∃ r, fetchAllResults (preparedPlan 1 (fun _ => 1))
        [CursorEvent.gotRow (fun _ => [7]), CursorEvent.scanComplete,
         CursorEvent.error { code := 4008, message := "" }] [] = some r ∧
      (0 ≤ r.ret ↔
        ∃ q' heap',
          pushRows (preparedPlan 1 (fun _ => 1)) []
            (leadingRows [CursorEvent.gotRow (fun _ => [7]), CursorEvent.scanComplete,
              CursorEvent.error { code := 4008, message := "" }]) =
            RowsOutcome.pushed q' heap' ∧
          (afterRows [CursorEvent.gotRow (fun _ => [7]), CursorEvent.scanComplete,
              CursorEvent.error { code := 4008, message := "" }] = [] ∨
            ∃ rest, afterRows [CursorEvent.gotRow (fun _ => [7]), CursorEvent.scanComplete,
              CursorEvent.error { code := 4008, message := "" }] =
                CursorEvent.scanComplete :: rest)) ∧
      (r.ret < 0 ↔
        (Call.nextResult NextResultOutcome.NextResult_error ∈ r.calls ∨
          ∃ k, Call.pushResultIfChanged k false ∈ r.calls)) := by
  refine ⟨by decide, ?_⟩
  obtain ⟨r, h1, _, _, h4, _, _, _, h8, _⟩ := C7_fetch_outcome (preparedPlan 1 (fun _ => 1))
    [CursorEvent.gotRow (fun _ => [7]), CursorEvent.scanComplete,
     CursorEvent.error { code := 4008, message := "" }] []
    (by
      intro ev hev
      simp only [List.mem_cons, List.mem_singleton, List.not_mem_nil, or_false] at hev
      rcases hev with h | h | h <;> subst h <;> exact fun h => CursorEvent.noConfusion h)
  exact ⟨r, h1, h8, h4⟩

/-- C8 (evaluation at the failing input): for an index handle whose type is neither
unique-hash nor ordered, `defineOperation` returns the null definition and leaves the
builder as it was, so `getNdbError` gives the diagnostic the builder held before; on a
builder without an error that diagnostic has code 0. -/
theorem C8_unsupported_index_leaves_builder :
    (∀ (State Operand Def : Type) (b : NdbQueryBuilder State Operand Def) (st : State)
      (name : String) (code : Nat) (table : Table) (keys : List Operand),
      defineOperation b st (some { name := name, getType := IndexType.other code }) table keys
        = (none, st)) ∧
    (defineOperation plainBuilder { code := 0, message := "" }
      (some { name := "ix", getType := IndexType.other 0 }) { name := "t" } []).1 = none ∧
    (getNdbError plainBuilder
      (defineOperation plainBuilder { code := 0, message := "" }
        (some { name := "ix", getType := IndexType.other 0 }) { name := "t" } []).2).code = 0 :=
  ⟨fun _ _ _ _ _ _ _ _ _ => rfl, rfl, rfl⟩

/-- C9: for every table and key-part list, `defineOperation` returns exactly what the
builder returns for the selected strategy, called once from the state it was in: with
no index handle, `readTuple` on the table with the key parts; with a unique-hash
index, `readTuple` on that index with the key parts; with an ordered index,
`scanIndex` over the bound built from the same key parts; the key parts are passed
unchanged and in the same order. -/
theorem C9_defineOperation_strategy {State Operand Def : Type}
    (b : NdbQueryBuilder State Operand Def) (st : State) (table : Table)
    (keys : List Operand) :
    defineOperation b st none table keys = b.readTuple st table keys ∧
    (∀ ix : Index, ix.getType = IndexType.UniqueHashIndex →
      defineOperation b st (some ix) table keys = b.readTupleIndex st ix table keys) ∧
    (∀ ix : Index, ix.getType = IndexType.OrderedIndex →
      defineOperation b st (some ix) table keys =
        b.scanIndex st ix table
          { low := keys, lowInclusive := true, high := keys, highInclusive := true }) := by
  refine ⟨rfl, ?_, ?_⟩
  · intro ix hix
    simp only [defineOperation, hix]
  · intro ix hix
    simp only [defineOperation, hix, NdbQueryIndexBound.ofKeys]

/-- Witness of C9: the three strategies on a builder that tells them apart. -/
theorem C9_defineOperation_strategy_witness :
    defineOperation plainBuilder { code := 0, message := "" } none { name := "t" } [10, 20]
      = (some 1, { code := 0, message := "" }) ∧
    defineOperation plainBuilder { code := 0, message := "" }
      (some { name := "ix", getType := IndexType.UniqueHashIndex }) { name := "t" } [10, 20]
      = plainBuilder.readTupleIndex { code := 0, message := "" }
          { name := "ix", getType := IndexType.UniqueHashIndex } { name := "t" } [10, 20] ∧
    defineOperation plainBuilder { code := 0, message := "" }
      (some { name := "ix", getType := IndexType.OrderedIndex }) { name := "t" } [10, 20]
      = plainBuilder.scanIndex { code := 0, message := "" }
          { name := "ix", getType := IndexType.OrderedIndex } { name := "t" }
          { low := [10, 20], lowInclusive := true, high := [10, 20], highInclusive := true } :=
  ⟨(C9_defineOperation_strategy plainBuilder { code := 0, message := "" } { name := "t" }
      [10, 20]).1,
   (C9_defineOperation_strategy plainBuilder { code := 0, message := "" } { name := "t" }
      [10, 20]).2.1 _ rfl,
   (C9_defineOperation_strategy plainBuilder { code := 0, message := "" } { name := "t" }
      [10, 20]).2.2 _ rfl⟩

set_option maxRecDepth 100000 in
/-- C10 (counterexample): after one push at level 0 of a one-level plan, `lastCopy` of
the level is 1, `getResult(1)` is the null pointer, and the header of the copy is at
flat index 0. -/
theorem C10_lastCopy_flat_index_counterexample :
    Reachable 1 onePush ∧ (onePush.buffers 0).lastCopy = 1 ∧
    getResult onePush (onePush.buffers 0).lastCopy = HeaderPtr.null ∧
    getResult onePush 0 = HeaderPtr.header (QueryResultHeader.copyOf 0 [7]) :=
  ⟨⟨_, reachedWith_onePush⟩, by decide, by decide, by decide⟩

/-- C10 (amended): in every state reached from a new QueryOperation by
`pushResultIfChanged` calls at levels below `depth` in none of which `growHeaderArray`
fails, for every level whose `lastCopy` is nonzero, `lastCopy - 1` is the flat index
(the index `getResult` takes) of a populated header whose level is that level and
whose payload is the last row copied out at that level. -/
theorem C10_lastCopy_indexes_last_copy (depth : Nat) (q : QueryOperation)
    (copied : Nat → Option Bytes) (hr : ReachedWith depth q copied) (level : Nat)
    (hlevel : level < depth) (hne : (q.buffers level).lastCopy ≠ 0) :
    ∃ b, copied level = some b ∧ (q.buffers level).lastCopy - 1 < q.nresults ∧
      getResult q ((q.buffers level).lastCopy - 1) =
        HeaderPtr.header { data := some b, depth := level, tag := 0 } := by
  have inv := reachInv_of_reachedWith depth q copied hr
  cases hc : copied level with
  | none => exact absurd (inv.none_yet level hlevel hc) hne
  | some b =>
    obtain ⟨c1, c2, c3⟩ := inv.copied_at level b hlevel hc
    have hlt : (q.buffers level).lastCopy - 1 < q.nresults := by omega
    exact ⟨b, rfl, hlt, getResult_header q _ _ hlt c3⟩

set_option maxRecDepth 100000 in
/-- Witness of C10 (amended): the one-level plan after one push. -/
theorem C10_lastCopy_indexes_last_copy_witness :
    (onePush.buffers 0).lastCopy ≠ 0 ∧
    ∃ b, (Function.update (fun _ => none) 0 (some [7]) : Nat → Option Bytes) 0 = some b ∧
      (onePush.buffers 0).lastCopy - 1 < onePush.nresults ∧
      getResult onePush ((onePush.buffers 0).lastCopy - 1) =
        HeaderPtr.header { data := some b, depth := 0, tag := 0 } :=
  ⟨by decide,
   C10_lastCopy_indexes_last_copy 1 onePush _ reachedWith_onePush 0 (by decide) (by decide)⟩

/-- Every reached state has one of the capacities of `CapacityShape`. -/
theorem capacityShape_of_reachedWith (depth : Nat) (q : QueryOperation)
    (copied : Nat → Option Bytes) (h : ReachedWith depth q copied) : CapacityShape q := by
  induction h with
  | new => exact Or.inl ⟨rfl, rfl, rfl⟩
  | createRowBuffer q copied level record _ _ ih => exact ih
  | receiveRow q copied row _ ih => exact ih
  | push q copied level heap hq _ hok ih =>
    have wf := (reachInv_of_reachedWith depth q copied hq).wf
    rcases pushResultIfChanged_cases q level heap with heq | heq
    · rw [heq]
      exact ih
    · rw [heq] at hok ⊢
      have hgrow : q.nresults = q.nheaders → (Heap.request heap).1 = true := by
        rcases hok with hok | hok
        · exact (requests_of_pushResult_ok q level heap wf hok).1
        · exact hok
      obtain ⟨k1, k2⟩ := pushResult_capacity q level heap hgrow
      by_cases hfull : q.nresults = q.nheaders
      · rw [if_pos hfull] at k1 k2
        rcases ih with ⟨_, _, e3⟩ | ⟨k, e1, e2⟩
        · refine Or.inr ⟨0, ?_, ?_⟩
          · rw [k1, e3]
            rfl
          · rw [k2, k1]
            omega
        · refine Or.inr ⟨k + 1, ?_, ?_⟩
          · rw [k1, e2, e1, pow_succ]
            omega
          · rw [k2, k1]
            omega
      · rw [if_neg hfull] at k1 k2
        rcases ih with ⟨e1, e2, _⟩ | ⟨k, e1, e2⟩
        · exact absurd (by rw [e1, e2]) hfull
        · exact Or.inr ⟨k, by rw [k1, e1], by rw [k2, k1, e2]⟩

set_option maxRecDepth 100000 in
/-- C11 (counterexample): a new QueryOperation has capacity 0 and no header array, not a
capacity of 1024; its next capacity is 1024, the first push finds the count (0) equal
to the capacity (0), and only after that push is the capacity 1024. -/
theorem C11_initial_capacity_counterexample :
    (newQueryOperation 1).nheaders = 0 ∧ (newQueryOperation 1).results = [] ∧
    (newQueryOperation 1).nextHeaderAllocationSize = 1024 ∧
    (newQueryOperation 1).nresults = (newQueryOperation 1).nheaders ∧
    onePush.nheaders = 1024 ∧ onePush.nextHeaderAllocationSize = 2048 :=
  ⟨rfl, rfl, rfl, rfl, by decide, by decide⟩

/-- C11 (amended): the ResultStore starts with capacity 0 and next capacity 1024. In
every state reached by successful pushes (see `Reachable`) the capacity is 0 (nothing
pushed yet) or one of 1024, 2048, 4096, ... with the next capacity twice the capacity;
the header array holds as many headers as the capacity and the populated count does
not exceed it. A push leaves the capacity as it is unless it finds the populated count
equal to the capacity; a successful growth sets the capacity to the next capacity and
doubles the next capacity; and the header a successful push writes, at the old count,
is inside the header array. -/
theorem C11_capacity_doubling (depth : Nat) (q : QueryOperation)
    (hr : Reachable depth q) (level : Nat) (heap : Heap) :
    ((newQueryOperation depth).nheaders = 0 ∧
      (newQueryOperation depth).nextHeaderAllocationSize = 1024) ∧
    ((q.nheaders = 0 ∧ q.nresults = 0 ∧ q.nextHeaderAllocationSize = 1024) ∨
      ∃ k, q.nheaders = 1024 * 2 ^ k ∧ q.nextHeaderAllocationSize = 2 * q.nheaders) ∧
    q.results.length = q.nheaders ∧ q.nresults ≤ q.nheaders ∧
    (q.nresults ≠ q.nheaders →
      (pushResultIfChanged q level heap).q.nheaders = q.nheaders ∧
      (pushResultIfChanged q level heap).q.nextHeaderAllocationSize =
        q.nextHeaderAllocationSize) ∧
    ((Heap.request heap).1 = true →
      (growHeaderArray q heap).ok = true ∧
      (growHeaderArray q heap).q.nheaders = q.nextHeaderAllocationSize ∧
      (growHeaderArray q heap).q.nextHeaderAllocationSize = q.nextHeaderAllocationSize * 2) ∧
    ((pushResult q level heap).ok = true →
      (pushResult q level heap).q.nheaders =
        (if q.nresults = q.nheaders then q.nextHeaderAllocationSize else q.nheaders) ∧
      q.nresults < (pushResult q level heap).q.results.length ∧
      (pushResult q level heap).q.nresults ≤ (pushResult q level heap).q.nheaders) := by
  obtain ⟨copied, hc⟩ := hr
  have inv := reachInv_of_reachedWith depth q copied hc
  refine ⟨⟨rfl, rfl⟩, capacityShape_of_reachedWith depth q copied hc, inv.wf.block,
    inv.wf.inside, ?_, ?_, ?_⟩
  · intro hne
    rcases pushResultIfChanged_cases q level heap with heq | heq
    · rw [heq]
      exact ⟨rfl, rfl⟩
    · rw [heq]
      obtain ⟨k1, k2⟩ := pushResult_capacity q level heap (fun h => absurd h hne)
      rw [if_neg hne] at k1 k2
      exact ⟨k1, k2⟩
  · intro hcalloc
    obtain ⟨g1, _, _, _, _, _, g7, g8, _⟩ := growHeaderArray_spec q heap inv.wf hcalloc
    exact ⟨g1, g7, g8⟩
  · intro hok
    obtain ⟨r1, r2⟩ := requests_of_pushResult_ok q level heap inv.wf hok
    obtain ⟨_, _, p3, _, _, p6, _, _, _⟩ := pushResult_core q level heap inv.wf r1 r2
    refine ⟨(pushResult_capacity q level heap r1).1, ?_, p3.inside⟩
    rw [p3.block]
    have := p3.inside
    omega

/-- Witness of C11 (amended): the one-level plan holding 1024 headers in the first
block of 1024; the next push grows the header array to 2048. -/
theorem C11_capacity_doubling_witness :
    Reachable 1 (pushes 1024) ∧ (pushes 1024).nresults = 1024 ∧
    (pushes 1024).nheaders = 1024 ∧ (pushes 1024).nextHeaderAllocationSize = 2048 ∧
    ((Heap.request []).1 = true →
      (growHeaderArray (pushes 1024) []).ok = true ∧
      (growHeaderArray (pushes 1024) []).q.nheaders =
        (pushes 1024).nextHeaderAllocationSize ∧
      (growHeaderArray (pushes 1024) []).q.nextHeaderAllocationSize =
        (pushes 1024).nextHeaderAllocationSize * 2) ∧
    ((pushResult (pushes 1024) 0 []).ok = true →
      (pushResult (pushes 1024) 0 []).q.nheaders =
        (if (pushes 1024).nresults = (pushes 1024).nheaders
          then (pushes 1024).nextHeaderAllocationSize else (pushes 1024).nheaders) ∧
      (pushes 1024).nresults < (pushResult (pushes 1024) 0 []).q.results.length ∧
      (pushResult (pushes 1024) 0 []).q.nresults ≤ (pushResult (pushes 1024) 0 []).q.nheaders) := by
  obtain ⟨c, hc, _, _, hres, _, _, hcap⟩ := pushes_spec 1024 (le_refl _)
  obtain ⟨_, _, _, _, _, h6, h7⟩ := C11_capacity_doubling 1 (pushes 1024) ⟨c, hc⟩ 0 []
  exact ⟨⟨c, hc⟩, hres, (hcap (by decide)).1, (hcap (by decide)).2, h6, h7⟩

end QueryOperation
